import Mathlib

/-!
# Verification of `improve_definitions.py` (Duolingo2Anki)

A shallow embedding of the core of `src/improve_definitions.py`:
the definition cleaner (`post_fix_definition`), the batch partitioner
(`chunk_list`), the NDJSON record decoder (`parse_ndjson_word_defs`),
the batched request / reconciliation / retry engine (`generate`) and the
run-level wiring of `main` (row reading, output rows, exit status).

Strings are modelled as `List Char` (wrapped into `String` at the
boundaries).  The generation endpoint (an HTTP streaming call in the
source) is modelled as an oracle `Nat → String` giving the accumulated
response text of the k-th request issued during the run; everything the
engine does with that text is embedded faithfully.

Python regular-expression operations used by the source are embedded as
executable scanners with the same left-to-right, non-overlapping match
semantics.  Scanners that skip more than one character per step take an
explicit fuel argument (instantiated with the input length); running out
of fuel returns the remaining input unchanged.
-/

set_option maxRecDepth 4000

namespace D2A

/-! ## Character classes (Python `\s`, the punctuation class, `\w`) -/

/-- ASCII whitespace as matched by Python `\s` / `str.strip()`. -/
def isWS (c : Char) : Bool :=
  c = ' ' || c = '\t' || c = '\n' || c = '\r' || c = Char.ofNat 11 || c = Char.ofNat 12

/-- The punctuation class `[,;:.!?]` of `post_fix_definition`. -/
def isPunctCh (c : Char) : Bool :=
  c = ',' || c = ';' || c = ':' || c = '.' || c = '!' || c = '?'

/-- Word characters for `\b` boundaries (ASCII fragment of Python `\w`). -/
def isWordChar (c : Char) : Bool :=
  c.isAlphanum || c = '_'

/-! ## Basic string scanners -/

/-- Strip characters satisfying `p` from both ends (Python `str.strip`). -/
def stripWith (p : Char → Bool) (l : List Char) : List Char :=
  ((l.dropWhile p).reverse.dropWhile p).reverse

/-- Python `str.strip()` on the character-list level. -/
def stripWS (l : List Char) : List Char := stripWith isWS l

/-- Python `str.strip()` on strings. -/
def pyStrip (s : String) : String := String.mk (stripWS s.data)

/-- `d.strip()` is falsy, i.e. the string is empty after trimming. -/
def trimEmpty (s : String) : Bool := stripWS s.data = []

/-- `re.sub(r"\s+", " ", ·)`: collapse every whitespace run to one space.
`inWs` records whether the previous character was inside a run. -/
def collapseWS : Bool → List Char → List Char
  | _, [] => []
  | inWs, c :: cs =>
    if isWS c then
      if inWs then collapseWS true cs else ' ' :: collapseWS true cs
    else
      c :: collapseWS false cs

/-- `re.sub(r"\s+([,;:.!?])", r"\1", ·)`: drop a whitespace run that
immediately precedes a punctuation mark.  `run` holds the pending
whitespace run in reverse order. -/
def punctGo (run : List Char) : List Char → List Char
  | [] => run.reverse
  | c :: cs =>
    if isWS c then punctGo (c :: run) cs
    else if isPunctCh c then c :: punctGo [] cs
    else run.reverse ++ c :: punctGo [] cs

/-- The whole-string punctuation-spacing fix. -/
def punctFix (l : List Char) : List Char := punctGo [] l

/-- Python `str.strip(" -")`. -/
def stripDashSp (l : List Char) : List Char :=
  stripWith (fun c => c = ' ' || c = '-') l

/-- Does `pat` occur at the head of `l`? -/
def isPre : List Char → List Char → Bool
  | [], _ => true
  | _ :: _, [] => false
  | p :: ps, c :: cs => p = c && isPre ps cs

/-- Does `pat` occur as a contiguous substring of `l`?  (Only used with
non-empty patterns.) -/
def hasSub (pat : List Char) : List Char → Bool
  | [] => isPre pat []
  | c :: cs => isPre pat (c :: cs) || hasSub pat cs

/-- Python `str.replace(pat, rep)`: left-to-right, non-overlapping.
Fuel-exhaustion returns the rest unchanged. -/
def replaceAllF (pat rep : List Char) : Nat → List Char → List Char
  | 0, l => l
  | _ + 1, [] => []
  | n + 1, c :: cs =>
    if isPre pat (c :: cs) then rep ++ replaceAllF pat rep n ((c :: cs).drop pat.length)
    else c :: replaceAllF pat rep n cs

/-- Python `str.replace(pat, rep)` (with `pat` non-empty). -/
def replaceAll (pat rep l : List Char) : List Char :=
  replaceAllF pat rep l.length l

/-- Skip to just past the first `')'`, if any. -/
def pastRParen : List Char → Option (List Char)
  | [] => none
  | c :: cs => if c = ')' then some cs else pastRParen cs

/-- `re.sub(r"\([^)]*\)", "", ·)`: remove every parenthesized span.  At a
`'('`, the scan jumps past the next `')'` (the regex match); a `'('` with
no later `')'` matches nothing, and since no `')'` follows anywhere, the
tail is kept verbatim. -/
def removeParensF : Nat → List Char → List Char
  | 0, l => l
  | _ + 1, [] => []
  | n + 1, c :: cs =>
    if c = '(' then
      match pastRParen cs with
      | some after => removeParensF n after
      | none => c :: cs
    else c :: removeParensF n cs

/-- `re.sub(r"\([^)]*\)", "", ·)` with fuel set to the input length. -/
def removeParens (l : List Char) : List Char := removeParensF l.length l

/-- Does `\boneself\b` (case-insensitive) match at the head of `l`, with
`prev` the character just before `l` in the scanned string? -/
def oneselfAt (prev : Option Char) (l : List Char) : Bool :=
  isPre ("oneself".data) (l.take 7 |>.map Char.toLower) &&
  (l.take 7).length = 7 &&
  (match prev with | none => true | some p => !isWordChar p) &&
  (match l.drop 7 with | [] => true | c :: _ => !isWordChar c)

/-- `re.sub(r"\boneself\b", "", defn, flags=re.IGNORECASE)`: remove each
whole-word, case-insensitive `oneself`.  The scan resumes after a match,
with the last matched character as the boundary context. -/
def removeOneselfF : Nat → Option Char → List Char → List Char
  | 0, _, l => l
  | _ + 1, _, [] => []
  | n + 1, prev, c :: cs =>
    if oneselfAt prev (c :: cs) then removeOneselfF n (some 'f') ((c :: cs).drop 7)
    else c :: removeOneselfF n (some c) cs

/-- The `oneself` removal step of `post_fix_definition`. -/
def removeOneself (l : List Char) : List Char := removeOneselfF l.length none l

/-! ## The subject-marker pattern `SUBJECT_PREFIX_PATTERN` -/

/-- The alternatives of `^\((I|you|he / she / it|we|they / you-plural)\)\s+`,
in alternation order. -/
def subjAlts : List (List Char) :=
  ["I".data, "you".data, "he / she / it".data, "we".data, "they / you-plural".data]

/-- Try one alternative: `l` must start with `(subj)` followed by at least
one whitespace character; the match (greedy `\s+` included) is split off. -/
def subjTry (subj l : List Char) : Option (List Char × List Char) :=
  let pat := '(' :: subj ++ [')']
  if isPre pat l then
    let rest0 := l.drop pat.length
    let run := rest0.takeWhile isWS
    if run.isEmpty then none
    else some (pat ++ run, rest0.dropWhile isWS)
  else none

/-- `SUBJECT_PREFIX_PATTERN.match`: split off the allowed leading subject
marker if present, else return the string whole. -/
def subjSplit (l : List Char) : List Char × List Char :=
  (subjAlts.findSome? (fun s => subjTry s l)).getD ([], l)

/-! ## The Definition Cleaner (`post_fix_definition`) -/

/-- The private placeholder protecting `(it)`. -/
def keepItTok : List Char := "__KEEP_IT__".data

/-- The literal `(it)`. -/
def itParens : List Char := "(it)".data

/-- The final whitespace / punctuation normalization of
`post_fix_definition`: `strip`, collapse `\s+`, `strip`, remove space
before punctuation, `strip(" -")`. -/
def finishUp (l : List Char) : List Char :=
  stripDashSp (punctFix (stripWS (collapseWS false (stripWS l))))

/-- `post_fix_definition` on character lists, with the `KEEP_IT_PARENS`
constant lifted to a parameter (the source hardcodes it to `True`). -/
def pfdCore (keepIt : Bool) (l : List Char) : List Char :=
  let l1 := removeOneself l
  let pr := subjSplit l1
  let rest :=
    if keepIt then
      replaceAll keepItTok itParens (removeParens (replaceAll itParens keepItTok pr.2))
    else removeParens pr.2
  finishUp (pr.1 ++ rest)

/-- `post_fix_definition` with `KEEP_IT_PARENS` as an explicit switch. -/
def post_fix_definition_with (keepIt : Bool) (s : String) : String :=
  String.mk (pfdCore keepIt s.data)

/-- `post_fix_definition` as in the source, where `KEEP_IT_PARENS = True`. -/
def post_fix_definition (s : String) : String :=
  post_fix_definition_with true s

/-! ## The Batch Dispatcher's partitioner (`chunk_list`) -/

/-- `chunk_list(xs, n) = [xs[i:i+n] for i in range(0, len(xs), n)]`,
written with fuel (each step consumes at least one element when `n ≥ 1`).
Python raises on `n = 0`; all statements below assume `1 ≤ n`. -/
def chunkF {α : Type} : Nat → List α → Nat → List (List α)
  | 0, _, _ => []
  | _ + 1, [], _ => []
  | f + 1, x :: xs, n => (x :: xs).take n :: chunkF f ((x :: xs).drop n) n

/-- The `chunk_list` partitioner of the source. -/
def chunk_list {α : Type} (xs : List α) (n : Nat) : List (List α) :=
  chunkF xs.length xs n

/-! ## Shape predicates for cleaned strings

Used to state on which inputs the cleaner is idempotent. -/

/-- Every adjacent pair of characters satisfies `f`. -/
def pairOK (f : Char → Char → Bool) : List Char → Bool
  | [] => true
  | [_] => true
  | a :: b :: r => f a b && pairOK f (b :: r)

/-- `f c` holds of the head of `l` (vacuously for `[]`). -/
def pairHd (f : Char → Char → Bool) (c : Char) : List Char → Bool
  | [] => true
  | d :: _ => f c d

/-- Every whitespace character is a plain space. -/
def wsNorm (l : List Char) : Bool := l.all (fun c => !isWS c || c = ' ')

/-- No two adjacent whitespace characters. -/
def noAdjWS (l : List Char) : Bool := pairOK (fun a b => !(isWS a && isWS b)) l

/-- No whitespace character immediately before a punctuation mark. -/
def noWsPunct (l : List Char) : Bool := pairOK (fun a b => !(isWS a && isPunctCh b)) l

/-- The head of `l`, if any, does not satisfy `p`. -/
def headNot (p : Char → Bool) (l : List Char) : Prop :=
  ∀ c, l.head? = some c → p c = false

/-! ## JSON values and a recursive-descent parser (embedding `json.loads`)

`parse_ndjson_word_defs` feeds each line to `json.loads`.  The JSON value
space and parser below embed the behaviour of `json.loads` on a line:
values, strings with escapes, numbers kept as raw text (the engine only
ever checks whether a field is a string), strict rejection of unescaped
control characters, and the Python extensions `NaN` / `Infinity` /
`-Infinity`.  Parsers take fuel (instantiated with the input length plus
one); fuel cannot run out on such inputs since every step consumes input. -/

inductive JVal where
  | null
  | bool (b : Bool)
  | num (text : List Char)
  | str (s : List Char)
  | arr (xs : List JVal)
  | obj (fields : List (List Char × JVal))

/-- JSON inter-token whitespace. -/
def jWS (c : Char) : Bool := c = ' ' || c = '\t' || c = '\n' || c = '\r'

/-- Skip JSON whitespace. -/
def skipWS (l : List Char) : List Char := l.dropWhile jWS

/-- Hexadecimal digit value. -/
def hexVal (c : Char) : Option Nat :=
  if '0' ≤ c ∧ c ≤ '9' then some (c.toNat - 48)
  else if 'a' ≤ c ∧ c ≤ 'f' then some (c.toNat - 87)
  else if 'A' ≤ c ∧ c ≤ 'F' then some (c.toNat - 55)
  else none

/-- Parse the body of a JSON string after the opening quote; returns the
decoded content and the input after the closing quote.  Surrogate
`\uXXXX` escapes are rejected rather than paired (no claim depends on
them). -/
def jStrF : Nat → List Char → Option (List Char × List Char)
  | 0, _ => none
  | _ + 1, [] => none
  | n + 1, c :: cs =>
    if c = '"' then some ([], cs)
    else if c = '\\' then
      match cs with
      | [] => none
      | e :: cs2 =>
        let esc : Option (Char × List Char) :=
          if e = '"' then some ('"', cs2)
          else if e = '\\' then some ('\\', cs2)
          else if e = '/' then some ('/', cs2)
          else if e = 'b' then some (Char.ofNat 8, cs2)
          else if e = 'f' then some (Char.ofNat 12, cs2)
          else if e = 'n' then some ('\n', cs2)
          else if e = 'r' then some ('\r', cs2)
          else if e = 't' then some ('\t', cs2)
          else if e = 'u' then
            match cs2 with
            | h1 :: h2 :: h3 :: h4 :: cs3 =>
              match hexVal h1, hexVal h2, hexVal h3, hexVal h4 with
              | some a, some b, some c2, some d =>
                let code := ((a * 16 + b) * 16 + c2) * 16 + d
                if code < 55296 then some (Char.ofNat code, cs3) else none
              | _, _, _, _ => none
            | _ => none
          else none
        match esc with
        | none => none
        | some (ch, rest2) =>
          match jStrF n rest2 with
          | none => none
          | some (s, r) => some (ch :: s, r)
    else if c.toNat < 32 then none
    else
      match jStrF n cs with
      | none => none
      | some (s, r) => some (c :: s, r)

/-- One or more decimal digits. -/
def digits1 (l : List Char) : Option (List Char × List Char) :=
  let d := l.takeWhile Char.isDigit
  if d.isEmpty then none else some (d, l.dropWhile Char.isDigit)

/-- The JSON number grammar (`int frac? exp?`), returning the consumed
text; leading zeros are rejected as in `json.loads`. -/
def jNum (l : List Char) : Option (List Char × List Char) :=
  let negPart : List Char × List Char :=
    match l with
    | c :: cs => if c = '-' then ([c], cs) else ([], l)
    | [] => ([], l)
  match negPart.2 with
  | [] => none
  | c :: cs =>
    let intPart : Option (List Char × List Char) :=
      if c = '0' then some (['0'], cs)
      else if c.isDigit then digits1 (c :: cs)
      else none
    match intPart with
    | none => none
    | some (ip, r1) =>
      let fracPart : Option (List Char × List Char) :=
        match r1 with
        | '.' :: r2 =>
          match digits1 r2 with
          | none => none
          | some (fp, r3) => some ('.' :: fp, r3)
        | _ => some ([], r1)
      match fracPart with
      | none => none
      | some (fp, r3) =>
        let expPart : Option (List Char × List Char) :=
          match r3 with
          | e :: r4 =>
            if e = 'e' || e = 'E' then
              match r4 with
              | s :: r5 =>
                if s = '+' || s = '-' then
                  match digits1 r5 with
                  | none => none
                  | some (ep, r6) => some (e :: s :: ep, r6)
                else
                  match digits1 r4 with
                  | none => none
                  | some (ep, r6) => some (e :: ep, r6)
              | [] => none
            else some ([], r3)
          | [] => some ([], r3)
        match expPart with
        | none => none
        | some (ep, r6) => some (negPart.1 ++ ip ++ fp ++ ep, r6)

mutual

/-- Parse one JSON value (after skipping leading whitespace). -/
def jValF : Nat → List Char → Option (JVal × List Char)
  | 0, _ => none
  | n + 1, l0 =>
    match skipWS l0 with
    | [] => none
    | c :: cs =>
      if c = '"' then
        match jStrF (cs.length + 1) cs with
        | none => none
        | some (s, r) => some (JVal.str s, r)
      else if c = 't' then
        if isPre "rue".data cs then some (JVal.bool true, cs.drop 3) else none
      else if c = 'f' then
        if isPre "alse".data cs then some (JVal.bool false, cs.drop 4) else none
      else if c = 'n' then
        if isPre "ull".data cs then some (JVal.null, cs.drop 3) else none
      else if c = 'N' then
        if isPre "aN".data cs then some (JVal.num "NaN".data, cs.drop 2) else none
      else if c = 'I' then
        if isPre "nfinity".data cs then some (JVal.num "Infinity".data, cs.drop 7)
        else none
      else if c = '[' then
        match skipWS cs with
        | ']' :: r => some (JVal.arr [], r)
        | r1 =>
          match jArrF n r1 with
          | none => none
          | some (xs, r) => some (JVal.arr xs, r)
      else if c = '{' then
        match skipWS cs with
        | '}' :: r => some (JVal.obj [], r)
        | r1 =>
          match jObjF n r1 with
          | none => none
          | some (fs, r) => some (JVal.obj fs, r)
      else if c = '-' then
        if isPre "Infinity".data cs then some (JVal.num "-Infinity".data, cs.drop 8)
        else
          match jNum (c :: cs) with
          | none => none
          | some (t, r) => some (JVal.num t, r)
      else if c.isDigit then
        match jNum (c :: cs) with
        | none => none
        | some (t, r) => some (JVal.num t, r)
      else none

/-- Parse the elements of a non-empty JSON array (after `[`). -/
def jArrF : Nat → List Char → Option (List JVal × List Char)
  | 0, _ => none
  | n + 1, l =>
    match jValF n l with
    | none => none
    | some (v, r1) =>
      match skipWS r1 with
      | ',' :: r2 =>
        match jArrF n r2 with
        | none => none
        | some (xs, r) => some (v :: xs, r)
      | ']' :: r2 => some ([v], r2)
      | _ => none

/-- Parse the members of a non-empty JSON object (after `{`). -/
def jObjF : Nat → List Char → Option (List (List Char × JVal) × List Char)
  | 0, _ => none
  | n + 1, l =>
    match skipWS l with
    | '"' :: r0 =>
      match jStrF (r0.length + 1) r0 with
      | none => none
      | some (k, r1) =>
        match skipWS r1 with
        | ':' :: r2 =>
          match jValF n r2 with
          | none => none
          | some (v, r3) =>
            match skipWS r3 with
            | ',' :: r4 =>
              match jObjF n r4 with
              | none => none
              | some (fs, r) => some ((k, v) :: fs, r)
            | '}' :: r4 => some ([(k, v)], r4)
            | _ => none
        | _ => none
    | _ => none

end

/-- `json.loads` on a line: parse one value, allow surrounding
whitespace, require the whole input to be consumed. -/
def jparse (s : String) : Option JVal :=
  match jValF (s.data.length + 1) s.data with
  | some (v, rest) => if (skipWS rest).isEmpty then some v else none
  | none => none

/-- `dict.get` on a decoded JSON object (later duplicate keys win, as in
the dict that `json.loads` builds). -/
def objGet (fields : List (List Char × JVal)) (k : List Char) : Option JVal :=
  (fields.reverse.find? (fun p => p.1 = k)).map (fun p => p.2)

/-! ## The NDJSON record decoder (`parse_ndjson_word_defs`) -/

/-- Split on newline characters (`str.splitlines`; a possible final empty
fragment after a trailing newline is blank and removed by the caller's
blank-line filter, so the difference from `splitlines` is unobservable). -/
def splitNLGo (cur : List Char) : List Char → List (List Char)
  | [] => [cur.reverse]
  | c :: cs => if c = '\n' then cur.reverse :: splitNLGo [] cs else splitNLGo (c :: cur) cs

/-- `content.splitlines()` (empty input gives no lines). -/
def splitNL (l : List Char) : List (List Char) :=
  match l with
  | [] => []
  | _ => splitNLGo [] l

/-- `[ln.strip() for ln in content.splitlines() if ln.strip()]`. -/
def nonblankLines (content : String) : List String :=
  ((splitNL content.data).map (fun l => String.mk (stripWS l))).filter
    (fun s => !s.isEmpty)

/-- Insertion-ordered mapping update (`out[w] = d` on a Python dict):
replace in place if the key exists, else append. -/
def updAssoc {V : Type} : List (String × V) → String → V → List (String × V)
  | [], k, v => [(k, v)]
  | (k0, v0) :: rest, k, v =>
    if k0 = k then (k, v) :: rest else (k0, v0) :: updAssoc rest k v

/-- Mapping lookup (`w in results` / `results.get`). -/
def findVal {V : Type} : List (String × V) → String → Option V
  | [], _ => none
  | (k0, v0) :: rest, k => if k0 = k then some v0 else findVal rest k

/-- The per-line verdict of the decoder loop body (lines 158-172 of the
source): JSON decoding, the object check, and the string-field checks.
The error text carries the same information as the Python messages (the
exception detail of `json.JSONDecodeError` is summarized). -/
def lineVerdict (ln : String) : Except String (String × String) :=
  match jparse ln with
  | none => Except.error ("invalid JSON: " ++ String.mk (ln.data.take 160))
  | some (JVal.obj fields) =>
    match objGet fields "word".data, objGet fields "definition".data with
    | some (JVal.str w), some (JVal.str d) => Except.ok (String.mk w, String.mk d)
    | _, _ => Except.error "word/definition not strings"
  | some _ => Except.error "JSON not an object"

/-- The decoder loop, threading the mapping and the error list. -/
def ndjsonGo : Nat → List String → List (String × String) → List String →
    List (String × String) × List String
  | _, [], out, errs => (out, errs)
  | idx, ln :: rest, out, errs =>
    match lineVerdict ln with
    | Except.ok (w, d) => ndjsonGo (idx + 1) rest (updAssoc out w d) errs
    | Except.error e =>
      ndjsonGo (idx + 1) rest out (errs ++ ["Line " ++ toString idx ++ ": " ++ e])

/-- `parse_ndjson_word_defs`: returns (word → definition mapping,
parse-error list). -/
def parse_ndjson_word_defs (content : String) :
    List (String × String) × List String :=
  ndjsonGo 1 (nonblankLines content) [] []

/-- The verdict of a line as an optional record. -/
def okOf (ln : String) : Option (String × String) :=
  match lineVerdict ln with
  | Except.ok p => some p
  | Except.error _ => none

/-- The successfully decoded records of a blob, in order. -/
def okRecords (content : String) : List (String × String) :=
  (nonblankLines content).filterMap okOf

/-- The definition of the last well-formed record for `w`, if any. -/
def lastDef (recs : List (String × String)) (w : String) : Option String :=
  (recs.reverse.find? (fun p => p.1 = w)).map (fun p => p.2)

/-! ## The batched-request / reconciliation / retry engine (`generate`)

The generation endpoint is a blocking streamed HTTP call in the source
(`ollama_chat_stream_collect_content`); the engine only ever sees the
accumulated response text, so the exchange is modelled by an oracle
`Nat → String` giving the text answered to the k-th request of the run.
The `time.sleep` throttle and the per-batch progress print have no effect
on the data flow and are not modelled. -/

/-- Whether a request belongs to the initial pass over a batch or to a
retry round. -/
inductive ReqKind where
  | initReq
  | retryReq
deriving DecidableEq

/-- The engine state: the cumulative results mapping
(word → (model_definition, cleaned_definition)), the number of requests
issued so far, and the trace of issued requests. -/
structure GenState where
  results : List (String × (String × String))
  reqIdx : Nat
  trace : List (ReqKind × List String)
deriving DecidableEq

/-- Issue one generation request for the word list `ws` and decode its
response (lines 234-243 / 261-269 of the source). -/
def issueReq (oracle : Nat → String) (k : ReqKind) (ws : List String) (st : GenState) :
    List (String × String) × GenState :=
  ((parse_ndjson_word_defs (oracle st.reqIdx)).1,
   { st with reqIdx := st.reqIdx + 1, trace := st.trace ++ [(k, ws)] })

/-- The per-word reconciliation step (lines 246-252 / 270-276): a word
with a non-empty (after trimming) decoded definition is resolved into the
mapping (cleaned if enabled); otherwise it joins the missing list. -/
def processWord (apply : Bool) (pm : List (String × String))
    (st : List (String × (String × String)) × List String) (w : String) :
    List (String × (String × String)) × List String :=
  let d := (findVal pm w).getD ""
  if trimEmpty d then (st.1, st.2 ++ [w])
  else (updAssoc st.1 w (d, if apply then post_fix_definition d else d), st.2)

/-- Reconcile every word of a request against its decoded mapping. -/
def processWords (apply : Bool) (pm : List (String × String)) (ws : List String)
    (res : List (String × (String × String))) (missAcc : List String) :
    List (String × (String × String)) × List String :=
  ws.foldl (processWord apply pm) (res, missAcc)

/-- One retry sub-batch (the body of `for rb in chunk_list(...)`). -/
def retryChunk (oracle : Nat → String) (apply : Bool)
    (acc : GenState × List String) (rb : List String) : GenState × List String :=
  let pr := issueReq oracle ReqKind.retryReq rb acc.1
  let rn := processWords apply pr.1 rb pr.2.results acc.2
  ({ pr.2 with results := rn.1 }, rn.2)

/-- One retry round: re-partition the missing words at the retry batch
size and dispatch each sub-batch, accumulating the still-missing words. -/
def retryRound (oracle : Nat → String) (apply : Bool) (retryBS : Nat)
    (missing : List String) (st : GenState) : GenState × List String :=
  (chunk_list missing retryBS).foldl (retryChunk oracle apply) (st, [])

/-- The retry loop (`while missing and attempt < max_retries`), with fuel
the number of rounds still allowed; returns the final state, the final
missing list, and the number of rounds executed. -/
def retryLoop (oracle : Nat → String) (apply : Bool) (retryBS : Nat) :
    Nat → List String → GenState → GenState × List String × Nat
  | 0, missing, st => (st, missing, 0)
  | n + 1, missing, st =>
    if missing.isEmpty then (st, missing, 0)
    else
      let sn := retryRound oracle apply retryBS missing st
      let rec2 := retryLoop oracle apply retryBS n sn.2 sn.1
      (rec2.1, rec2.2.1, rec2.2.2 + 1)

/-- The empty-marker fill (lines 280-282): still-missing words not
already present in the mapping get `("", "")`. -/
def fillMissing (res : List (String × (String × String))) (missing : List String) :
    List (String × (String × String)) :=
  missing.foldl (fun r w => if (findVal r w).isSome then r else updAssoc r w ("", "")) res

/-- Process one initial batch: request, reconcile, per-batch retry loop,
empty-marker fill (the body of `for bi, batch in enumerate(batches)`). -/
def runBatch (oracle : Nat → String) (apply : Bool) (retryBS maxRetries : Nat)
    (st : GenState) (batch : List String) : GenState :=
  let pr := issueReq oracle ReqKind.initReq batch st
  let rm := processWords apply pr.1 batch pr.2.results []
  let lr := retryLoop oracle apply retryBS maxRetries rm.2 { pr.2 with results := rm.1 }
  { lr.1 with results := fillMissing lr.1.results lr.2.1 }

/-- The configuration of `generate` (CLI defaults: batch 100,
retry-batch 25, retries 2, cleaning on). -/
structure GenArgs where
  batch_size : Nat
  retry_batch_size : Nat
  max_retries : Nat
  apply_postfixes : Bool

/-- `generate`, instrumented with the request trace. -/
def generateAux (args : GenArgs) (oracle : Nat → String) (words : List String) :
    GenState :=
  (chunk_list words args.batch_size).foldl
    (runBatch oracle args.apply_postfixes args.retry_batch_size args.max_retries)
    ⟨[], 0, []⟩

/-- `generate`: word → (model_definition, cleaned_definition). -/
def generate (args : GenArgs) (oracle : Nat → String) (words : List String) :
    List (String × (String × String)) :=
  (generateAux args oracle words).results

/-- Per-batch trace segmentation: the trace consists, for each initial
batch in order, of its initial request followed only by retry requests
drawn from that same batch. -/
def SegOK : List (ReqKind × List String) → List (List String) → Prop
  | t, [] => t = []
  | t, b :: bs => ∃ r t2, t = (ReqKind.initReq, b) :: (r ++ t2) ∧
      (∀ e ∈ r, e.1 = ReqKind.retryReq ∧ ∀ w ∈ e.2, w ∈ b) ∧ SegOK t2 bs

/-! ## The run-level wiring of `main` -/

/-- One input row: a word and the carried-through external definition. -/
structure RowIn where
  word : String
  duolingo_definition : String
deriving DecidableEq

/-- One output row (the four output columns, in order). -/
structure RowOut where
  word : String
  duolingo_definition : String
  model_definition : String
  cleaned_definition : String
deriving DecidableEq

/-- `read_input_csv` (lines 87-94), applied to the extracted cell pairs
(word cell, external-definition cell; an absent cell is the empty
string): strip both, skip rows whose word is blank. -/
def read_input_csv (raw : List (String × String)) : List RowIn :=
  raw.filterMap (fun p =>
    if (pyStrip p.1).isEmpty then none
    else some ⟨pyStrip p.1, pyStrip p.2⟩)

/-- The output-row construction of `main` (lines 344-357). -/
def outRows (inputs : List RowIn) (res : List (String × (String × String))) :
    List RowOut :=
  inputs.map (fun r =>
    let md := (findVal res r.word).getD ("", "")
    ⟨r.word, r.duolingo_definition, md.1, md.2⟩)

/-- `missing_count` of `main`: rows whose model definition trims empty. -/
def missingCount (inputs : List RowIn) (res : List (String × (String × String))) :
    Nat :=
  inputs.countP (fun r => trimEmpty ((findVal res r.word).getD ("", "")).1)

/-- The exit status of `main`: 2 when no usable rows, 1 when any model
definition is missing, 0 otherwise. -/
def mainExit (raw : List (String × String)) (args : GenArgs) (oracle : Nat → String) :
    Nat :=
  let inputs := read_input_csv raw
  if inputs.isEmpty then 2
  else
    let res := generate args oracle (inputs.map RowIn.word)
    if 0 < missingCount inputs res then 1 else 0

/-! ## Partitioner lemmas -/

theorem chunkF_spec {α : Type} :
    ∀ (f : Nat) (xs : List α) (n : Nat), xs.length ≤ f → 1 ≤ n →
      (chunkF f xs n).join = xs ∧
      (chunkF f xs n).length = (xs.length + n - 1) / n ∧
      ∀ g ∈ chunkF f xs n, g ≠ [] ∧ g.length ≤ n := by
  intro f
  induction f with
  | zero =>
    intro xs n hf _
    have hxs : xs = [] := List.length_eq_zero.mp (Nat.le_zero.mp hf)
    subst hxs
    refine ⟨rfl, ?_, by intro g hg; cases hg⟩
    have h0 : (([] : List α).length + n - 1) / n = 0 := Nat.div_eq_of_lt (by simp; omega)
    simpa [chunkF] using h0.symm
  | succ f ih =>
    intro xs n hf hn
    cases xs with
    | nil =>
      refine ⟨rfl, ?_, by intro g hg; cases hg⟩
      have h0 : (([] : List α).length + n - 1) / n = 0 := Nat.div_eq_of_lt (by simp; omega)
      simpa [chunkF] using h0.symm
    | cons x xs =>
      have hlen : ((x :: xs).drop n).length ≤ f := by
        simp only [List.length_drop, List.length_cons]
        simp only [List.length_cons] at hf
        omega
      obtain ⟨hjoin, hcount, hmem⟩ := ih ((x :: xs).drop n) n hlen hn
      refine ⟨?_, ?_, ?_⟩
      · simpa [chunkF, hjoin] using List.take_append_drop n (x :: xs)
      · simp only [chunkF, List.length_cons, hcount, List.length_drop]
        rcases Nat.le_total (xs.length + 1) n with hc | hc
        · have h1 : xs.length + 1 - n = 0 := by omega
          have h2 : (0 + n - 1) / n = 0 := Nat.div_eq_of_lt (by omega)
          have h3 : (xs.length + 1 + n - 1) / n = 1 := by
            have he : xs.length + 1 + n - 1 = (xs.length + 1 - 1) + n := by omega
            rw [he, Nat.add_div_right _ (by omega), Nat.div_eq_of_lt (by omega)]
          rw [h1, h2, h3]
        · have h5 : (xs.length + 1 + n - 1) / n =
              (xs.length + 1 - n + n - 1) / n + 1 := by
            have h4 : xs.length + 1 - n + n - 1 + n = xs.length + 1 + n - 1 := by omega
            rw [← h4, Nat.add_div_right _ (by omega)]
          rw [h5]
      · intro g hg
        simp only [chunkF, List.mem_cons] at hg
        rcases hg with hg | hg
        · subst hg
          obtain ⟨m, rfl⟩ : ∃ m, n = m + 1 := ⟨n - 1, by omega⟩
          constructor
          · simp [List.take_cons]
          · simpa using Nat.min_le_left (m + 1) (x :: xs).length
        · exact hmem g hg

/-- Each element of a chunk comes from the original list. -/
theorem chunk_list_mem_subset {α : Type} (xs : List α) (n : Nat) (hn : 1 ≤ n)
    (g : List α) (hg : g ∈ chunk_list xs n) : ∀ a ∈ g, a ∈ xs := by
  intro a ha
  obtain ⟨hjoin, -, -⟩ := chunkF_spec xs.length xs n (Nat.le_refl _) hn
  rw [← hjoin]
  exact List.mem_join.mpr ⟨g, hg, ha⟩

/-- C4 -- `chunk_list` over a list of length `L` with batch size `B ≥ 1`
returns `⌈L / B⌉` contiguous groups whose concatenation is the input
(order preserved, nothing dropped or duplicated), with every group
non-empty and of size at most `B`. -/
theorem C4_chunk_list_partition (xs : List String) (n : Nat) (hn : 1 ≤ n) :
    (chunk_list xs n).length = (xs.length + n - 1) / n ∧
    (chunk_list xs n).join = xs ∧
    ∀ g ∈ chunk_list xs n, g ≠ [] ∧ g.length ≤ n := by
  obtain ⟨hjoin, hcount, hmem⟩ := chunkF_spec xs.length xs n (Nat.le_refl _) hn
  exact ⟨hcount, hjoin, hmem⟩

/-- Witness for C4 at `xs = ["comer", "beber", "vivir"]`, `B = 2`. -/
theorem C4_witness :
    (1 : Nat) ≤ 2 ∧
    ((chunk_list ["comer", "beber", "vivir"] 2).length = (3 + 2 - 1) / 2 ∧
     (chunk_list ["comer", "beber", "vivir"] 2).join = ["comer", "beber", "vivir"] ∧
     ∀ g ∈ chunk_list ["comer", "beber", "vivir"] 2, g ≠ [] ∧ g.length ≤ 2) :=
  ⟨by decide, C4_chunk_list_partition ["comer", "beber", "vivir"] 2 (by decide)⟩

/-! ## Pairwise-predicate toolbox -/

theorem pairOK_cons (f : Char → Char → Bool) (c : Char) (l : List Char) :
    pairOK f (c :: l) = (pairHd f c l && pairOK f l) := by
  cases l <;> rfl

theorem pairOK_tail {f : Char → Char → Bool} {c : Char} {l : List Char}
    (h : pairOK f (c :: l) = true) : pairOK f l = true := by
  rw [pairOK_cons, Bool.and_eq_true] at h
  exact h.2

theorem pairHd_of_cons {f : Char → Char → Bool} {c : Char} {l : List Char}
    (h : pairOK f (c :: l) = true) : pairHd f c l = true := by
  rw [pairOK_cons, Bool.and_eq_true] at h
  exact h.1

theorem pairHd_of_head? {f : Char → Char → Bool} {c : Char} {l : List Char}
    (h : ∀ d, l.head? = some d → f c d = true) : pairHd f c l = true := by
  cases l with
  | nil => rfl
  | cons d r => exact h d rfl

theorem pairHd_append_cons (f : Char → Char → Bool) (a c : Char) (A X : List Char) :
    pairHd f a (A ++ c :: X) = pairHd f a (A ++ [c]) := by
  cases A <;> rfl

theorem pairOK_append_right {f : Char → Char → Bool} :
    ∀ (A l : List Char), pairOK f (A ++ l) = true → pairOK f l = true
  | [], _, h => h
  | _ :: A, l, h => pairOK_append_right A l (pairOK_tail h)

theorem pairOK_append_left {f : Char → Char → Bool} :
    ∀ (A l : List Char), pairOK f (A ++ l) = true → pairOK f A = true := by
  intro A
  induction A with
  | nil => intro l _; rfl
  | cons a A ih =>
    intro l h
    rw [List.cons_append, pairOK_cons, Bool.and_eq_true] at h
    obtain ⟨h1, h2⟩ := h
    rw [pairOK_cons, Bool.and_eq_true]
    refine ⟨?_, ih l h2⟩
    cases A with
    | nil => rfl
    | cons b B => exact h1

theorem pairOK_of_sub {f : Char → Char → Bool} {l1 l2 : List Char}
    (h : l1 <:+: l2) (h2 : pairOK f l2 = true) : pairOK f l1 = true := by
  obtain ⟨s, t, rfl⟩ := h
  rw [List.append_assoc] at h2
  exact pairOK_append_left l1 t (pairOK_append_right s (l1 ++ t) h2)

theorem all_of_sub {p : Char → Bool} {l1 l2 : List Char}
    (h : l1 <:+: l2) (h2 : l2.all p = true) : l1.all p = true := by
  rw [List.all_eq_true] at h2 ⊢
  exact fun x hx => h2 x (h.sublist.subset hx)

theorem pairOK_dropTail {f : Char → Char → Bool} :
    ∀ (A : List Char) (c : Char) (X : List Char),
      pairOK f (A ++ c :: X) = true → pairOK f (A ++ [c]) = true := by
  intro A
  induction A with
  | nil => intro c X _; rfl
  | cons a A ih =>
    intro c X h
    rw [List.cons_append, pairOK_cons, Bool.and_eq_true] at h
    obtain ⟨h1, h2⟩ := h
    rw [List.cons_append, pairOK_cons, Bool.and_eq_true]
    refine ⟨?_, ih c X h2⟩
    rw [← pairHd_append_cons f a c A X]
    exact h1

theorem pairOK_append_cons {f : Char → Char → Bool} :
    ∀ (A : List Char) (c : Char) (X : List Char),
      pairOK f (A ++ [c]) = true → pairHd f c X = true → pairOK f X = true →
      pairOK f (A ++ c :: X) = true := by
  intro A
  induction A with
  | nil =>
    intro c X _ hhd hX
    rw [List.nil_append, pairOK_cons, Bool.and_eq_true]
    exact ⟨hhd, hX⟩
  | cons a A ih =>
    intro c X h hhd hX
    rw [List.cons_append, pairOK_cons, Bool.and_eq_true] at h
    obtain ⟨h1, h2⟩ := h
    rw [List.cons_append, pairOK_cons, Bool.and_eq_true]
    refine ⟨?_, ih c X h2 hhd hX⟩
    rw [pairHd_append_cons f a c A X]
    exact h1

theorem pairOK_cross {f : Char → Char → Bool} :
    ∀ (A : List Char) (c : Char) (X : List Char),
      pairOK f (A ++ c :: X) = true → ∀ a, A.getLast? = some a → f a c = true := by
  intro A
  induction A with
  | nil => intro c X _ a ha; cases ha
  | cons b A ih =>
    intro c X h a ha
    cases A with
    | nil =>
      simp only [List.getLast?_singleton, Option.some.injEq] at ha
      subst ha
      exact pairHd_of_cons (l := c :: X) h
    | cons b2 A2 =>
      rw [List.getLast?_cons_cons] at ha
      exact ih c X (pairOK_tail h) a ha

/-! ## `stripWith` lemmas -/

theorem head?_mem {l : List Char} {c : Char} (h : l.head? = some c) : c ∈ l := by
  cases l with
  | nil => cases h
  | cons d r =>
    simp only [List.head?_cons, Option.some.injEq] at h
    subst h
    exact List.mem_cons_self d r

theorem headNot_dropWhile (p : Char → Bool) (l : List Char) :
    headNot p (l.dropWhile p) := by
  induction l with
  | nil => intro c hc; cases hc
  | cons d r ih =>
    intro c hc
    rw [List.dropWhile_cons] at hc
    by_cases hp : p d = true
    · rw [if_pos hp] at hc
      exact ih c hc
    · rw [if_neg hp] at hc
      simp only [List.head?_cons, Option.some.injEq] at hc
      subst hc
      exact Bool.eq_false_iff.mpr hp

theorem dropWhile_eq_self_of_headNot {p : Char → Bool} {l : List Char}
    (h : headNot p l) : l.dropWhile p = l := by
  cases l with
  | nil => rfl
  | cons d r =>
    rw [List.dropWhile_cons, if_neg]
    rw [h d rfl]
    simp

theorem getLast?_dropWhile (p : Char → Bool) :
    ∀ l : List Char, l.dropWhile p ≠ [] → (l.dropWhile p).getLast? = l.getLast? := by
  intro l
  induction l with
  | nil => intro h; exact absurd rfl h
  | cons d r ih =>
    intro h
    by_cases hp : p d = true
    · rw [List.dropWhile_cons, if_pos hp] at h ⊢
      have hr : r ≠ [] := by
        intro h0
        subst h0
        exact h rfl
      obtain ⟨b, r2, rfl⟩ : ∃ b r2, r = b :: r2 := by
        cases r with
        | nil => exact absurd rfl hr
        | cons b r2 => exact ⟨b, r2, rfl⟩
      rw [ih h, List.getLast?_cons_cons]
    · rw [List.dropWhile_cons, if_neg hp]

theorem headNot_stripWith (p : Char → Bool) (l : List Char) :
    headNot p (stripWith p l) := by
  intro c hc
  unfold stripWith at hc
  rw [List.head?_reverse] at hc
  have hne : ((l.dropWhile p).reverse.dropWhile p) ≠ [] := by
    intro h0
    rw [h0] at hc
    cases hc
  rw [getLast?_dropWhile p _ hne, List.getLast?_reverse] at hc
  exact headNot_dropWhile p l c hc

theorem lastNot_stripWith (p : Char → Bool) (l : List Char) :
    headNot p (stripWith p l).reverse := by
  intro c hc
  unfold stripWith at hc
  rw [List.reverse_reverse] at hc
  exact headNot_dropWhile p (l.dropWhile p).reverse c hc

theorem stripWith_eq_self {p : Char → Bool} {l : List Char}
    (h1 : headNot p l) (h2 : headNot p l.reverse) : stripWith p l = l := by
  unfold stripWith
  rw [dropWhile_eq_self_of_headNot h1, dropWhile_eq_self_of_headNot h2,
    List.reverse_reverse]

theorem stripWith_sub (p : Char → Bool) (l : List Char) : stripWith p l <:+: l := by
  have h1 : l.dropWhile p <:+ l := List.dropWhile_suffix p
  have h2 : (l.dropWhile p).reverse.dropWhile p <:+ (l.dropWhile p).reverse :=
    List.dropWhile_suffix p
  have h3 : stripWith p l <+: l.dropWhile p := by
    have := List.reverse_prefix.mpr h2
    rw [List.reverse_reverse] at this
    exact this
  exact h3.isInfix.trans h1.isInfix

/-! ## Whitespace-collapse lemmas -/

theorem ws_not_punct {c : Char} (h : isWS c = true) : isPunctCh c = false := by
  simp only [isWS, Bool.or_eq_true, decide_eq_true_eq] at h
  rcases h with ((((h | h) | h) | h) | h) | h <;> subst h <;> decide

theorem punct_not_ws {c : Char} (h : isPunctCh c = true) : isWS c = false := by
  simp only [isPunctCh, Bool.or_eq_true, decide_eq_true_eq] at h
  rcases h with ((((h | h) | h) | h) | h) | h <;> subst h <;> decide

theorem collapseWS_t_ws {c : Char} {cs : List Char} (hc : isWS c = true) :
    collapseWS true (c :: cs) = collapseWS true cs := by
  simp [collapseWS, hc]

theorem collapseWS_f_ws {c : Char} {cs : List Char} (hc : isWS c = true) :
    collapseWS false (c :: cs) = ' ' :: collapseWS true cs := by
  simp [collapseWS, hc]

theorem collapseWS_not_ws (b : Bool) {c : Char} {cs : List Char} (hc : isWS c = false) :
    collapseWS b (c :: cs) = c :: collapseWS false cs := by
  simp [collapseWS, hc]

theorem collapse_wsNorm : ∀ (b : Bool) (l : List Char), wsNorm (collapseWS b l) = true := by
  intro b l
  induction l generalizing b with
  | nil => rfl
  | cons c cs ih =>
    by_cases hc : isWS c = true
    · cases b with
      | true =>
        rw [collapseWS_t_ws hc]
        exact ih true
      | false =>
        rw [collapseWS_f_ws hc]
        have h1 : wsNorm (' ' :: collapseWS true cs) =
            ((!isWS ' ' || decide (' ' = ' ')) && wsNorm (collapseWS true cs)) := by
          simp [wsNorm]
        rw [h1, ih true, Bool.and_true]
        decide
    · rw [collapseWS_not_ws b (Bool.eq_false_iff.mpr hc)]
      have h1 : wsNorm (c :: collapseWS false cs) =
          ((!isWS c || decide (c = ' ')) && wsNorm (collapseWS false cs)) := by
        simp [wsNorm]
      rw [h1, ih false, Bool.and_true, Bool.eq_false_iff.mpr hc]
      rfl

theorem headNot_collapse_true : ∀ l : List Char, headNot isWS (collapseWS true l) := by
  intro l
  induction l with
  | nil => intro c hc; cases hc
  | cons d r ih =>
    intro c hc
    by_cases hd : isWS d = true
    · rw [collapseWS_t_ws hd] at hc
      exact ih c hc
    · rw [collapseWS_not_ws true (Bool.eq_false_iff.mpr hd)] at hc
      simp only [List.head?_cons, Option.some.injEq] at hc
      subst hc
      exact Bool.eq_false_iff.mpr hd

theorem collapse_noAdjWS : ∀ (b : Bool) (l : List Char), noAdjWS (collapseWS b l) = true := by
  intro b l
  induction l generalizing b with
  | nil => rfl
  | cons c cs ih =>
    by_cases hc : isWS c = true
    · cases b with
      | true =>
        rw [collapseWS_t_ws hc]
        exact ih true
      | false =>
        rw [collapseWS_f_ws hc]
        rw [noAdjWS, pairOK_cons, Bool.and_eq_true]
        refine ⟨?_, ih true⟩
        apply pairHd_of_head?
        intro d hd
        show (!(isWS ' ' && isWS d)) = true
        rw [headNot_collapse_true cs d hd, Bool.and_false]
        rfl
    · rw [collapseWS_not_ws b (Bool.eq_false_iff.mpr hc)]
      rw [noAdjWS, pairOK_cons, Bool.and_eq_true]
      refine ⟨?_, ih false⟩
      apply pairHd_of_head?
      intro d _
      show (!(isWS c && isWS d)) = true
      rw [Bool.eq_false_iff.mpr hc, Bool.false_and]
      rfl

theorem collapse_eq_self : ∀ l : List Char, wsNorm l = true → noAdjWS l = true →
    (collapseWS false l = l ∧ (headNot isWS l → collapseWS true l = l)) := by
  intro l
  induction l with
  | nil => exact fun _ _ => ⟨rfl, fun _ => rfl⟩
  | cons c cs ih =>
    intro hw ha
    simp only [wsNorm, List.all_cons, Bool.and_eq_true] at hw
    obtain ⟨hwc, hwcs⟩ := hw
    rw [noAdjWS, pairOK_cons, Bool.and_eq_true] at ha
    obtain ⟨hhd, hacs⟩ := ha
    obtain ⟨ih1, ih2⟩ := ih hwcs hacs
    by_cases hc : isWS c = true
    · have hsp : c = ' ' := by
        rw [hc] at hwc
        simpa using hwc
      have hcs : headNot isWS cs := by
        intro d hd
        cases cs with
        | nil => cases hd
        | cons e r =>
          simp only [List.head?_cons, Option.some.injEq] at hd
          rw [← hd]
          have hhd2 : (!(isWS c && isWS e)) = true := hhd
          rw [hc, Bool.true_and] at hhd2
          simpa using hhd2
      constructor
      · rw [collapseWS_f_ws hc, ih2 hcs, hsp]
      · intro hh
        have := hh c rfl
        rw [hc] at this
        cases this
    · have hc2 : isWS c = false := Bool.eq_false_iff.mpr hc
      exact ⟨by rw [collapseWS_not_ws false hc2, ih1],
        fun _ => by rw [collapseWS_not_ws true hc2, ih1]⟩

/-! ## Punctuation-fix lemmas -/

theorem punctGo_ws {c : Char} {cs run : List Char} (hc : isWS c = true) :
    punctGo run (c :: cs) = punctGo (c :: run) cs := by
  simp [punctGo, hc]

theorem punctGo_punct {c : Char} {cs run : List Char} (hc : isWS c = false)
    (hp : isPunctCh c = true) : punctGo run (c :: cs) = c :: punctGo [] cs := by
  simp [punctGo, hc, hp]

theorem punctGo_flush {c : Char} {cs run : List Char} (hc : isWS c = false)
    (hp : isPunctCh c = false) :
    punctGo run (c :: cs) = run.reverse ++ c :: punctGo [] cs := by
  simp [punctGo, hc, hp]

theorem punctGo_all (q : Char → Bool) :
    ∀ (l run : List Char), run.all q = true → l.all q = true →
      (punctGo run l).all q = true := by
  intro l
  induction l with
  | nil =>
    intro run hr _
    show (run.reverse.all q) = true
    rw [List.all_reverse]
    exact hr
  | cons c cs ih =>
    intro run hr hl
    simp only [List.all_cons, Bool.and_eq_true] at hl
    obtain ⟨hqc, hqcs⟩ := hl
    by_cases hc : isWS c = true
    · rw [punctGo_ws hc]
      exact ih (c :: run) (by simp [hqc, hr]) hqcs
    · have hc2 : isWS c = false := Bool.eq_false_iff.mpr hc
      by_cases hp : isPunctCh c = true
      · rw [punctGo_punct hc2 hp]
        simp only [List.all_cons, Bool.and_eq_true]
        exact ⟨hqc, ih [] rfl hqcs⟩
      · rw [punctGo_flush hc2 (Bool.eq_false_iff.mpr hp)]
        simp only [List.all_append, List.all_reverse, List.all_cons, Bool.and_eq_true]
        exact ⟨hr, hqc, ih [] rfl hqcs⟩

theorem pairOK_allws_snoc {c : Char} (hc : isPunctCh c = false) :
    ∀ A : List Char, A.all isWS = true →
      pairOK (fun a b => !(isWS a && isPunctCh b)) (A ++ [c]) = true := by
  intro A
  induction A with
  | nil => intro _; rfl
  | cons a A ih =>
    intro hA
    simp only [List.all_cons, Bool.and_eq_true] at hA
    obtain ⟨ha, hA⟩ := hA
    rw [List.cons_append, pairOK_cons, Bool.and_eq_true]
    refine ⟨?_, ih hA⟩
    apply pairHd_of_head?
    intro d hd
    show (!(isWS a && isPunctCh d)) = true
    cases A with
    | nil =>
      simp only [List.nil_append, List.head?_cons, Option.some.injEq] at hd
      subst hd
      rw [hc, Bool.and_false]
      rfl
    | cons b B =>
      simp only [List.cons_append, List.head?_cons, Option.some.injEq] at hd
      subst hd
      simp only [List.all_cons, Bool.and_eq_true] at hA
      rw [ws_not_punct hA.1, Bool.and_false]
      rfl

theorem pairOK_allws {f : Char → Char → Bool}
    (hf : ∀ a b, isWS b = true → f a b = true) :
    ∀ A : List Char, A.all isWS = true → pairOK f A = true := by
  intro A
  induction A with
  | nil => intro _; rfl
  | cons a A ih =>
    intro hA
    simp only [List.all_cons, Bool.and_eq_true] at hA
    obtain ⟨_, hA⟩ := hA
    rw [pairOK_cons, Bool.and_eq_true]
    refine ⟨?_, ih hA⟩
    apply pairHd_of_head?
    intro d hd
    cases A with
    | nil => cases hd
    | cons b B =>
      simp only [List.head?_cons, Option.some.injEq] at hd
      rw [← hd]
      simp only [List.all_cons, Bool.and_eq_true] at hA
      exact hf a b hA.1

theorem punctGo_noWsPunct :
    ∀ (l run : List Char), run.all isWS = true → noWsPunct (punctGo run l) = true := by
  intro l
  induction l with
  | nil =>
    intro run hr
    show pairOK _ run.reverse = true
    apply pairOK_allws (fun a b hb => by
      show (!(isWS a && isPunctCh b)) = true
      rw [ws_not_punct hb, Bool.and_false]
      rfl)
    rw [List.all_reverse]
    exact hr
  | cons c cs ih =>
    intro run hr
    by_cases hc : isWS c = true
    · rw [punctGo_ws hc]
      exact ih (c :: run) (by simp [hc, hr])
    · have hc2 : isWS c = false := Bool.eq_false_iff.mpr hc
      by_cases hp : isPunctCh c = true
      · rw [punctGo_punct hc2 hp]
        rw [noWsPunct, pairOK_cons, Bool.and_eq_true]
        refine ⟨?_, ih [] rfl⟩
        apply pairHd_of_head?
        intro d _
        show (!(isWS c && isPunctCh d)) = true
        rw [punct_not_ws hp, Bool.false_and]
        rfl
      · have hp2 : isPunctCh c = false := Bool.eq_false_iff.mpr hp
        rw [punctGo_flush hc2 hp2]
        rw [noWsPunct]
        apply pairOK_append_cons
        · apply pairOK_allws_snoc hp2
          rw [List.all_reverse]
          exact hr
        · apply pairHd_of_head?
          intro d _
          show (!(isWS c && isPunctCh d)) = true
          rw [hc2, Bool.false_and]
          rfl
        · exact ih [] rfl

theorem punctGo_noAdj :
    ∀ (l run : List Char), noAdjWS (run.reverse ++ l) = true →
      noAdjWS (punctGo run l) = true := by
  intro l
  induction l with
  | nil =>
    intro run h
    rw [List.append_nil] at h
    exact h
  | cons c cs ih =>
    intro run h
    by_cases hc : isWS c = true
    · rw [punctGo_ws hc]
      apply ih (c :: run)
      rw [List.reverse_cons, List.append_assoc, List.singleton_append]
      exact h
    · have hc2 : isWS c = false := Bool.eq_false_iff.mpr hc
      have hcs : noAdjWS cs = true :=
        pairOK_tail (pairOK_append_right run.reverse (c :: cs) h)
      by_cases hp : isPunctCh c = true
      · rw [punctGo_punct hc2 hp]
        rw [noAdjWS, pairOK_cons, Bool.and_eq_true]
        refine ⟨?_, ih [] hcs⟩
        apply pairHd_of_head?
        intro d _
        show (!(isWS c && isWS d)) = true
        rw [hc2, Bool.false_and]
        rfl
      · rw [punctGo_flush hc2 (Bool.eq_false_iff.mpr hp)]
        rw [noAdjWS]
        apply pairOK_append_cons
        · exact pairOK_dropTail run.reverse c cs h
        · apply pairHd_of_head?
          intro d _
          show (!(isWS c && isWS d)) = true
          rw [hc2, Bool.false_and]
          rfl
        · exact ih [] hcs

theorem punctGo_eq_self :
    ∀ (l run : List Char), run.all isWS = true →
      noWsPunct (run.reverse ++ l) = true → punctGo run l = run.reverse ++ l := by
  intro l
  induction l with
  | nil => intro run _ _; simp [punctGo]
  | cons c cs ih =>
    intro run hr h
    by_cases hc : isWS c = true
    · rw [punctGo_ws hc]
      rw [ih (c :: run) (by simp [hc, hr]) (by
        rw [List.reverse_cons, List.append_assoc, List.singleton_append]
        exact h)]
      rw [List.reverse_cons, List.append_assoc, List.singleton_append]
    · have hc2 : isWS c = false := Bool.eq_false_iff.mpr hc
      have hcs : noWsPunct cs = true :=
        pairOK_tail (pairOK_append_right run.reverse (c :: cs) h)
      by_cases hp : isPunctCh c = true
      · have hrun : run = [] := by
          by_contra hne
          obtain ⟨r, rs, rfl⟩ : ∃ r rs, run = r :: rs := by
            cases run with
            | nil => exact absurd rfl hne
            | cons r rs => exact ⟨r, rs, rfl⟩
          have hlast : (r :: rs).reverse.getLast? = some r := by
            rw [List.getLast?_reverse]
            rfl
          have hcross : (!(isWS r && isPunctCh c)) = true :=
            pairOK_cross (r :: rs).reverse c cs h r hlast
          have hrws : isWS r = true := by
            simp only [List.all_cons, Bool.and_eq_true] at hr
            exact hr.1
          rw [hrws, hp] at hcross
          simp at hcross
        subst hrun
        rw [punctGo_punct hc2 hp]
        rw [List.reverse_nil, List.nil_append] at h ⊢
        rw [ih [] rfl (pairOK_tail h)]
        rfl
      · rw [punctGo_flush hc2 (Bool.eq_false_iff.mpr hp)]
        rw [ih [] rfl hcs]
        rfl

/-! ## Fixed points of the final normalization pipeline -/

theorem headNot_isWS_of_strip {e : List Char} (hw : wsNorm e = true)
    (h : headNot (fun c => c = ' ' || c = '-') e) : headNot isWS e := by
  intro c hc
  cases hcc : isWS c with
  | false => rfl
  | true =>
    exfalso
    have h2 := (List.all_eq_true.mp hw) c (head?_mem hc)
    rw [hcc] at h2
    simp only [Bool.not_true, Bool.false_or, decide_eq_true_eq] at h2
    have h1 := h c hc
    rw [h2] at h1
    simp at h1

theorem wsNorm_reverse {l : List Char} (h : wsNorm l = true) : wsNorm l.reverse = true := by
  rw [wsNorm, List.all_reverse]
  exact h

theorem finishUp_props (l : List Char) :
    wsNorm (finishUp l) = true ∧ noAdjWS (finishUp l) = true ∧
    noWsPunct (finishUp l) = true ∧
    headNot (fun c => c = ' ' || c = '-') (finishUp l) ∧
    headNot (fun c => c = ' ' || c = '-') (finishUp l).reverse := by
  have hwb : wsNorm (collapseWS false (stripWS l)) = true := collapse_wsNorm false (stripWS l)
  have hab : noAdjWS (collapseWS false (stripWS l)) = true := collapse_noAdjWS false (stripWS l)
  have hinfc : stripWS (collapseWS false (stripWS l)) <:+: collapseWS false (stripWS l) :=
    stripWith_sub isWS (collapseWS false (stripWS l))
  have hwc : wsNorm (stripWS (collapseWS false (stripWS l))) = true := all_of_sub hinfc hwb
  have hac : noAdjWS (stripWS (collapseWS false (stripWS l))) = true := pairOK_of_sub hinfc hab
  have hwd : wsNorm (punctFix (stripWS (collapseWS false (stripWS l)))) = true :=
    punctGo_all _ (stripWS (collapseWS false (stripWS l))) [] rfl hwc
  have had : noAdjWS (punctFix (stripWS (collapseWS false (stripWS l)))) = true :=
    punctGo_noAdj (stripWS (collapseWS false (stripWS l))) [] hac
  have hpd : noWsPunct (punctFix (stripWS (collapseWS false (stripWS l)))) = true :=
    punctGo_noWsPunct (stripWS (collapseWS false (stripWS l))) [] rfl
  have hinfe : finishUp l <:+: punctFix (stripWS (collapseWS false (stripWS l))) :=
    stripWith_sub _ (punctFix (stripWS (collapseWS false (stripWS l))))
  exact ⟨all_of_sub hinfe hwd, pairOK_of_sub hinfe had, pairOK_of_sub hinfe hpd,
    headNot_stripWith _ (punctFix (stripWS (collapseWS false (stripWS l)))),
    lastNot_stripWith _ (punctFix (stripWS (collapseWS false (stripWS l))))⟩

theorem finishUp_fix (l : List Char) : finishUp (finishUp l) = finishUp l := by
  obtain ⟨hw, ha, hp, hh, hl⟩ := finishUp_props l
  have hws : headNot isWS (finishUp l) := headNot_isWS_of_strip hw hh
  have hws2 : headNot isWS (finishUp l).reverse :=
    headNot_isWS_of_strip (wsNorm_reverse hw) hl
  have h1 : stripWS (finishUp l) = finishUp l := stripWith_eq_self hws hws2
  have h2 : collapseWS false (finishUp l) = finishUp l :=
    (collapse_eq_self (finishUp l) hw ha).1
  have h3 : punctFix (finishUp l) = finishUp l := by
    have h0 := punctGo_eq_self (finishUp l) [] rfl hp
    rw [List.reverse_nil, List.nil_append] at h0
    exact h0
  have h4 : stripDashSp (finishUp l) = finishUp l := stripWith_eq_self hh hl
  show stripDashSp (punctFix (stripWS (collapseWS false (stripWS (finishUp l))))) = finishUp l
  rw [h1, h2, h1, h3, h4]

/-! ## Identity lemmas for the cleaner's rewriting steps -/

theorem removeParensF_id : ∀ (f : Nat) (l : List Char), '(' ∉ l → removeParensF f l = l := by
  intro f
  induction f with
  | zero => intro l _; rfl
  | succ n ih =>
    intro l h
    cases l with
    | nil => rfl
    | cons c cs =>
      have hc : ¬(c = '(') := by
        intro he
        exact h (he ▸ List.mem_cons_self c cs)
      simp only [removeParensF]
      rw [if_neg hc, ih cs (fun hm => h (List.mem_cons_of_mem c hm))]

theorem removeParens_id {l : List Char} (h : '(' ∉ l) : removeParens l = l :=
  removeParensF_id l.length l h

theorem replaceAllF_id {pat rep : List Char} :
    ∀ (f : Nat) (l : List Char), hasSub pat l = false → replaceAllF pat rep f l = l := by
  intro f
  induction f with
  | zero => intro l _; rfl
  | succ n ih =>
    intro l h
    cases l with
    | nil => rfl
    | cons c cs =>
      have h2 : (isPre pat (c :: cs) || hasSub pat cs) = false := h
      rw [Bool.or_eq_false_iff] at h2
      simp only [replaceAllF]
      rw [if_neg (by rw [h2.1]; exact Bool.false_ne_true), ih cs h2.2]

theorem replaceAll_id {pat rep l : List Char} (h : hasSub pat l = false) :
    replaceAll pat rep l = l :=
  replaceAllF_id l.length l h

theorem hasSub_head_mem {p : Char} {ps : List Char} :
    ∀ {l : List Char}, hasSub (p :: ps) l = true → p ∈ l := by
  intro l
  induction l with
  | nil => intro h; simp [hasSub, isPre] at h
  | cons c cs ih =>
    intro h
    have h2 : (isPre (p :: ps) (c :: cs) || hasSub (p :: ps) cs) = true := h
    rw [Bool.or_eq_true] at h2
    rcases h2 with h2 | h2
    · have h3 : (decide (p = c) && isPre ps cs) = true := h2
      rw [Bool.and_eq_true, decide_eq_true_eq] at h3
      rw [h3.1]
      exact List.mem_cons_self c cs
    · exact List.mem_cons_of_mem c (ih h2)

theorem subjTry_no_lparen {subj l : List Char} (h : '(' ∉ l) : subjTry subj l = none := by
  have hp : isPre ('(' :: subj ++ [')']) l = false := by
    cases l with
    | nil => rfl
    | cons c cs =>
      by_cases he : ('(' : Char) = c
      · exfalso
        apply h
        rw [he]
        exact List.mem_cons_self c cs
      · have : (decide (('(' : Char) = c) && isPre (subj ++ [')']) cs) = false := by
          rw [decide_eq_false he, Bool.false_and]
        exact this
  simp only [subjTry]
  rw [hp]
  rfl

theorem subjSplit_no_lparen {l : List Char} (h : '(' ∉ l) : subjSplit l = ([], l) := by
  simp [subjSplit, subjAlts, List.findSome?_cons, List.findSome?_nil, subjTry_no_lparen h]

theorem pfdCore_fix {c : List Char} (h1 : '(' ∉ c) (h2 : hasSub keepItTok c = false)
    (h3 : removeOneself c = c) (h4 : ∃ X, c = finishUp X) : pfdCore true c = c := by
  obtain ⟨X, hX⟩ := h4
  have e2 : subjSplit c = ([], c) := subjSplit_no_lparen h1
  have e3 : replaceAll itParens keepItTok c = c := by
    apply replaceAll_id
    cases hs : hasSub itParens c with
    | false => rfl
    | true => exact absurd (hasSub_head_mem hs) h1
  have e4 : removeParens c = c := removeParens_id h1
  have e5 : replaceAll keepItTok itParens c = c := replaceAll_id h2
  show finishUp ((subjSplit (removeOneself c)).1 ++
      replaceAll keepItTok itParens
        (removeParens (replaceAll itParens keepItTok (subjSplit (removeOneself c)).2))) = c
  rw [h3, e2]
  show finishUp ([] ++ replaceAll keepItTok itParens
      (removeParens (replaceAll itParens keepItTok c))) = c
  rw [e3, e4, e5, List.nil_append, hX]
  exact finishUp_fix X

/-! ## C5: the Cleaner is not idempotent -/

/-- C5 (counterexample) -- on `"ones(x)elf"` the cleaner is not
idempotent: removing the span `(x)` creates the word `oneself`, which a
second pass deletes; `clean "ones(x)elf" = "oneself"` but
`clean (clean "ones(x)elf") = ""`. -/
theorem C5_counterexample :
    post_fix_definition (post_fix_definition "ones(x)elf") ≠
      post_fix_definition "ones(x)elf" := by decide

theorem pfdCore_true_eq (l : List Char) :
    pfdCore true l = finishUp ((subjSplit (removeOneself l)).1 ++
      replaceAll keepItTok itParens
        (removeParens (replaceAll itParens keepItTok (subjSplit (removeOneself l)).2))) := by
  simp only [pfdCore, if_pos]

/-- C5 (amended) -- the cleaner is idempotent on every input whose cleaned
form contains no `'('` character, no occurrence of the internal
`__KEEP_IT__` placeholder, and no further removable whole-word `oneself`;
on such inputs `clean (clean s) = clean s`. -/
theorem C5_clean_idempotent_on_tame (s : String)
    (h1 : '(' ∉ (post_fix_definition s).data)
    (h2 : hasSub keepItTok (post_fix_definition s).data = false)
    (h3 : removeOneself (post_fix_definition s).data = (post_fix_definition s).data) :
    post_fix_definition (post_fix_definition s) = post_fix_definition s := by
  have hdata : (post_fix_definition s).data = pfdCore true s.data := by
    simp only [post_fix_definition, post_fix_definition_with]
  have hX : ∃ X, (post_fix_definition s).data = finishUp X :=
    ⟨_, by rw [hdata, pfdCore_true_eq]⟩
  have hcore : pfdCore true (post_fix_definition s).data = (post_fix_definition s).data :=
    pfdCore_fix h1 h2 h3 hX
  show String.mk (pfdCore true (post_fix_definition s).data) = post_fix_definition s
  rw [hcore]

/-- Witness for C5 at the input `"to like it"`. -/
theorem C5_witness :
    ('(' ∉ (post_fix_definition "to like it").data) ∧
    hasSub keepItTok (post_fix_definition "to like it").data = false ∧
    removeOneself (post_fix_definition "to like it").data =
      (post_fix_definition "to like it").data ∧
    post_fix_definition (post_fix_definition "to like it") =
      post_fix_definition "to like it" :=
  ⟨by decide, by decide, by decide,
    C5_clean_idempotent_on_tame "to like it" (by decide) (by decide) (by decide)⟩

/-! ## C6: the `KEEP_IT_PARENS` switch -/

/-- C6 -- the `(it)` handling of the cleaner is a boolean switch whose
default is to keep: the source's `post_fix_definition` equals the
switch-parameterized cleaner at `true`, keeping `"to like (it)"`
unchanged, while the `false` setting yields `"to like"`. -/
theorem C6_keep_it_parens_behavior :
    post_fix_definition_with true "to like (it)" = "to like (it)" ∧
    post_fix_definition_with false "to like (it)" = "to like" ∧
    ∀ s, post_fix_definition s = post_fix_definition_with true s :=
  ⟨by decide, by decide, fun _ => rfl⟩

/-! ## Association-list (Python dict) lemmas -/

theorem findVal_updAssoc_self {V : Type} :
    ∀ (m : List (String × V)) (k : String) (v : V),
      findVal (updAssoc m k v) k = some v := by
  intro m
  induction m with
  | nil => intro k v; simp [updAssoc, findVal]
  | cons p rest ih =>
    intro k v
    obtain ⟨k0, v0⟩ := p
    by_cases h : k0 = k
    · simp [updAssoc, findVal, h]
    · simp only [updAssoc, if_neg h, findVal]
      exact ih k v

theorem findVal_updAssoc_ne {V : Type} :
    ∀ (m : List (String × V)) (k k2 : String) (v : V), k ≠ k2 →
      findVal (updAssoc m k v) k2 = findVal m k2 := by
  intro m
  induction m with
  | nil => intro k k2 v h; simp [updAssoc, findVal, h]
  | cons p rest ih =>
    intro k k2 v h
    obtain ⟨k0, v0⟩ := p
    by_cases h0 : k0 = k
    · simp only [updAssoc, if_pos h0, findVal, if_neg h]
      rw [if_neg (h0 ▸ h)]
    · simp only [updAssoc, if_neg h0, findVal]
      by_cases h2 : k0 = k2
      · rw [if_pos h2, if_pos h2]
      · rw [if_neg h2, if_neg h2]
        exact ih k k2 v h

theorem findVal_isSome_updAssoc {V : Type} {m : List (String × V)} {w k : String}
    {v : V} (h : (findVal m w).isSome = true) :
    (findVal (updAssoc m k v) w).isSome = true := by
  by_cases hk : k = w
  · subst hk
    rw [findVal_updAssoc_self]
    rfl
  · rw [findVal_updAssoc_ne m k w v hk]
    exact h

/-- Keys of an updated mapping come from the old mapping or are the new key. -/
theorem mem_keys_updAssoc {V : Type} {k : String} {v : V} :
    ∀ (m : List (String × V)) (x : String),
      x ∈ (updAssoc m k v).map Prod.fst → x ∈ m.map Prod.fst ∨ x = k := by
  intro m
  induction m with
  | nil =>
    intro x h
    simp only [updAssoc, List.map_cons, List.map_nil, List.mem_singleton] at h
    exact Or.inr h
  | cons p rest ih =>
    intro x h
    obtain ⟨k0, v0⟩ := p
    by_cases h0 : k0 = k
    · simp only [updAssoc, if_pos h0, List.map_cons, List.mem_cons] at h
      rcases h with h | h
      · exact Or.inr h
      · exact Or.inl (by simp only [List.map_cons, List.mem_cons]; exact Or.inr h)
    · simp only [updAssoc, if_neg h0, List.map_cons, List.mem_cons] at h
      rcases h with h | h
      · exact Or.inl (by simp only [List.map_cons, List.mem_cons]; exact Or.inl h)
      · rcases ih x h with h2 | h2
        · exact Or.inl (by simp only [List.map_cons, List.mem_cons]; exact Or.inr h2)
        · exact Or.inr h2

/-- The keys of the mapping are pairwise distinct. -/
def NodupKeys {V : Type} (m : List (String × V)) : Prop :=
  (m.map Prod.fst).Nodup

theorem nodupKeys_updAssoc {V : Type} {k : String} {v : V} :
    ∀ (m : List (String × V)), NodupKeys m → NodupKeys (updAssoc m k v) := by
  intro m
  induction m with
  | nil => intro _; simp [NodupKeys, updAssoc]
  | cons p rest ih =>
    intro h
    obtain ⟨k0, v0⟩ := p
    rw [NodupKeys, List.map_cons, List.nodup_cons] at h
    obtain ⟨hnot, hrest⟩ := h
    by_cases h0 : k0 = k
    · simp only [updAssoc, if_pos h0, NodupKeys, List.map_cons, List.nodup_cons]
      exact ⟨h0 ▸ hnot, hrest⟩
    · simp only [updAssoc, if_neg h0, NodupKeys, List.map_cons, List.nodup_cons]
      refine ⟨?_, ih hrest⟩
      intro hmem
      rcases mem_keys_updAssoc rest k0 hmem with h2 | h2
      · exact hnot h2
      · exact h0 h2

theorem countP_keys_eq_zero {V : Type} {w : String} :
    ∀ (m : List (String × V)), w ∉ m.map Prod.fst →
      m.countP (fun p => decide (p.1 = w)) = 0 := by
  intro m hw
  rw [List.countP_eq_zero]
  intro p hp hdec
  apply hw
  rw [decide_eq_true_eq] at hdec
  rw [← hdec]
  exact List.mem_map_of_mem Prod.fst hp

theorem countP_keys_eq_one {V : Type} {w : String} {v : V} :
    ∀ (m : List (String × V)), NodupKeys m → findVal m w = some v →
      m.countP (fun p => decide (p.1 = w)) = 1 := by
  intro m
  induction m with
  | nil => intro _ h; cases h
  | cons p rest ih =>
    intro hn hf
    obtain ⟨k0, v0⟩ := p
    rw [NodupKeys, List.map_cons, List.nodup_cons] at hn
    rw [List.countP_cons]
    by_cases h0 : k0 = w
    · have hz : rest.countP (fun p => decide (p.1 = w)) = 0 :=
        countP_keys_eq_zero rest (h0 ▸ hn.1)
      simp only [decide_eq_true_eq]
      rw [hz, if_pos h0]
    · have hf2 : findVal rest w = some v := by
        rw [findVal, if_neg h0] at hf
        exact hf
      simp only [decide_eq_true_eq]
      rw [ih hn.2 hf2, if_neg h0]

/-! ## Decoder-loop lemmas (C7, C8) -/

theorem ndjsonGo_spec :
    ∀ (lines : List String) (idx : Nat) (out : List (String × String))
      (errs : List String),
      (ndjsonGo idx lines out errs).1 =
        (lines.filterMap okOf).foldl (fun m p => updAssoc m p.1 p.2) out ∧
      (ndjsonGo idx lines out errs).2.length + (lines.filterMap okOf).length =
        errs.length + lines.length := by
  intro lines
  induction lines with
  | nil => intro idx out errs; exact ⟨rfl, by simp [ndjsonGo]⟩
  | cons ln rest ih =>
    intro idx out errs
    cases hv : lineVerdict ln with
    | ok p =>
      obtain ⟨w, d⟩ := p
      have hok : okOf ln = some (w, d) := by rw [okOf, hv]
      have hstep : ndjsonGo idx (ln :: rest) out errs =
          ndjsonGo (idx + 1) rest (updAssoc out w d) errs := by
        rw [ndjsonGo, hv]
      obtain ⟨ih1, ih2⟩ := ih (idx + 1) (updAssoc out w d) errs
      have hfm : List.filterMap okOf (ln :: rest) = (w, d) :: List.filterMap okOf rest := by
        rw [List.filterMap_cons, hok]
      constructor
      · rw [hstep, ih1, hfm]
        rfl
      · rw [hstep, hfm]
        simp only [List.length_cons]
        omega
    | error e =>
      have hok : okOf ln = none := by rw [okOf, hv]
      have hstep : ndjsonGo idx (ln :: rest) out errs =
          ndjsonGo (idx + 1) rest out (errs ++ ["Line " ++ toString idx ++ ": " ++ e]) := by
        rw [ndjsonGo, hv]
      obtain ⟨ih1, ih2⟩ := ih (idx + 1) out (errs ++ ["Line " ++ toString idx ++ ": " ++ e])
      have hfm : List.filterMap okOf (ln :: rest) = List.filterMap okOf rest := by
        rw [List.filterMap_cons, hok]
      constructor
      · rw [hstep, ih1, hfm]
      · rw [hstep, hfm]
        rw [List.length_append] at ih2
        simp only [List.length_singleton, List.length_cons, List.length_nil] at ih2 ⊢
        omega

/-- C7 -- record decoding degrades without aborting: the output mapping
is exactly the left fold of the per-line decodes that succeeded (every
failing line contributes nothing to it), and the number of recorded
parse errors plus the number of successfully decoded lines equals the
number of non-blank lines (each failing line adds exactly one error and
decoding continues); in particular, a blob with one well-formed line and
one invalid line yields exactly the well-formed entry and one error. -/
theorem C7_decoder_tolerance :
    (∀ content : String,
      (parse_ndjson_word_defs content).1 =
        (okRecords content).foldl (fun m p => updAssoc m p.1 p.2) [] ∧
      (parse_ndjson_word_defs content).2.length + (okRecords content).length =
        (nonblankLines content).length) ∧
    parse_ndjson_word_defs
        "\x7b\"word\":\"comer\",\"definition\":\"to eat\"\x7d\nnot json" =
      ([("comer", "to eat")], ["Line 2: invalid JSON: not json"]) := by
  constructor
  · intro content
    obtain ⟨h1, h2⟩ := ndjsonGo_spec (nonblankLines content) 1 [] []
    exact ⟨h1, by simpa using h2⟩
  · decide

theorem lastDef_cons (k v : String) (rest : List (String × String)) (w : String) :
    lastDef ((k, v) :: rest) w =
      match lastDef rest w with
      | some d => some d
      | none => if k = w then some v else none := by
  rw [lastDef, lastDef, List.reverse_cons, List.find?_append]
  cases hfind : rest.reverse.find? (fun p => decide (p.1 = w)) with
  | some p => simp [Option.orElse, hfind]
  | none =>
    simp only [Option.orElse, hfind, Option.map]
    by_cases hk : k = w
    · simp [List.find?, hk]
    · simp [List.find?, hk]

theorem findVal_foldl_upd :
    ∀ (recs : List (String × String)) (m : List (String × String)) (w : String),
      findVal (recs.foldl (fun m p => updAssoc m p.1 p.2) m) w =
        (match lastDef recs w with
          | some d => some d
          | none => findVal m w) := by
  intro recs
  induction recs with
  | nil => intro m w; simp [lastDef, findVal]
  | cons p rest ih =>
    intro m w
    obtain ⟨k, v⟩ := p
    rw [List.foldl_cons, ih, lastDef_cons]
    cases hlast : lastDef rest w with
    | some d => rfl
    | none =>
      by_cases hk : k = w
      · subst hk
        simp only [if_pos rfl]
        exact findVal_updAssoc_self m k v
      · rw [if_neg hk]
        exact findVal_updAssoc_ne m k w v hk

theorem nodupKeys_foldl_upd :
    ∀ (recs : List (String × String)) (m : List (String × String)), NodupKeys m →
      NodupKeys (recs.foldl (fun m p => updAssoc m p.1 p.2) m) := by
  intro recs
  induction recs with
  | nil => intro m h; exact h
  | cons p rest ih =>
    intro m h
    rw [List.foldl_cons]
    exact ih _ (nodupKeys_updAssoc m h)

/-- C8 -- last-write-wins decoding: whenever a blob contains well-formed
records for a word `w` (in particular two or more), the decoded mapping
binds `w` to the definition of the last such record, and `w` occurs
exactly once as a key of the mapping. -/
theorem C8_last_write_wins (content : String) (w d : String)
    (h : lastDef (okRecords content) w = some d) :
    findVal (parse_ndjson_word_defs content).1 w = some d ∧
    (parse_ndjson_word_defs content).1.countP (fun p => decide (p.1 = w)) = 1 := by
  have hfold := (ndjsonGo_spec (nonblankLines content) 1 [] []).1
  have hd : lastDef ((nonblankLines content).filterMap okOf) w = some d := h
  have h1 : findVal (parse_ndjson_word_defs content).1 w = some d := by
    show findVal (ndjsonGo 1 (nonblankLines content) [] []).1 w = some d
    rw [hfold, findVal_foldl_upd, hd]
  refine ⟨h1, ?_⟩
  have hnodup : NodupKeys (parse_ndjson_word_defs content).1 := by
    show NodupKeys (ndjsonGo 1 (nonblankLines content) [] []).1
    rw [hfold]
    exact nodupKeys_foldl_upd (okRecords content) [] (by simp [NodupKeys])
  exact countP_keys_eq_one (parse_ndjson_word_defs content).1 hnodup h1

/-- Witness for C8 at a blob with two well-formed records for `"dup"`. -/
theorem C8_witness :
    lastDef (okRecords ("\x7b\"word\":\"dup\",\"definition\":\"first\"\x7d\n" ++
      "\x7b\"word\":\"dup\",\"definition\":\"second\"\x7d")) "dup" = some "second" ∧
    (findVal (parse_ndjson_word_defs ("\x7b\"word\":\"dup\",\"definition\":\"first\"\x7d\n" ++
        "\x7b\"word\":\"dup\",\"definition\":\"second\"\x7d")).1 "dup" = some "second" ∧
      (parse_ndjson_word_defs ("\x7b\"word\":\"dup\",\"definition\":\"first\"\x7d\n" ++
        "\x7b\"word\":\"dup\",\"definition\":\"second\"\x7d")).1.countP
          (fun p => decide (p.1 = "dup")) = 1) :=
  ⟨by decide,
    C8_last_write_wins ("\x7b\"word\":\"dup\",\"definition\":\"first\"\x7d\n" ++
      "\x7b\"word\":\"dup\",\"definition\":\"second\"\x7d") "dup" "second" (by decide)⟩

/-! ## Row passthrough and exit status (C9, C3) -/

/-- C9 -- the external-provenance (duolingo) definition of every input
row is carried to the corresponding output row unmodified: the output
rows are in one-to-one ordered correspondence with the input rows, and
their `duolingo_definition` column is exactly the input rows' field; the
engine (`generate`) never touches it. -/
theorem C9_duolingo_passthrough (raw : List (String × String)) (args : GenArgs)
    (oracle : Nat → String) :
    (outRows (read_input_csv raw)
        (generate args oracle ((read_input_csv raw).map RowIn.word))).length =
      (read_input_csv raw).length ∧
    (outRows (read_input_csv raw)
        (generate args oracle ((read_input_csv raw).map RowIn.word))).map
      RowOut.duolingo_definition =
    (read_input_csv raw).map RowIn.duolingo_definition := by
  constructor
  · rw [outRows, List.length_map]
  · rw [outRows, List.map_map]
    rfl

/-- C3 -- the exit status is non-zero iff the input yields zero usable
rows or some row's word has an empty (after trimming) model definition
after the whole run; with at least one usable row and every word
resolved, it is zero. -/
theorem C3_exit_status_iff (raw : List (String × String)) (args : GenArgs)
    (oracle : Nat → String) :
    mainExit raw args oracle ≠ 0 ↔
      (read_input_csv raw = [] ∨
        ∃ r ∈ read_input_csv raw,
          trimEmpty ((findVal (generate args oracle ((read_input_csv raw).map RowIn.word))
            r.word).getD ("", "")).1 = true) := by
  simp only [mainExit]
  by_cases he : (read_input_csv raw).isEmpty = true
  · rw [if_pos he]
    have he2 : read_input_csv raw = [] := by
      rwa [List.isEmpty_iff] at he
    simp [he2]
  · rw [if_neg he]
    have he2 : ¬(read_input_csv raw = []) := by
      rwa [List.isEmpty_iff] at he
    by_cases hm : 0 < missingCount (read_input_csv raw)
        (generate args oracle ((read_input_csv raw).map RowIn.word))
    · rw [if_pos hm]
      rw [missingCount, List.countP_pos] at hm
      simp only [ne_eq, one_ne_zero, not_false_eq_true, true_iff]
      exact Or.inr hm
    · rw [if_neg hm]
      rw [missingCount, List.countP_pos] at hm
      simp only [ne_eq, not_true_eq_false, false_iff, not_or]
      push_neg at hm
      exact ⟨he2, by
        intro ⟨r, hr, hp⟩
        exact absurd hp (by simpa using hm r hr)⟩

/-! ## C1: the retry loop runs inside the per-batch loop -/

/-- C1 (counterexample) -- with words `["a", "b"]`, batch size 1, retry
batch size 1, one retry round, and an endpoint that answers nothing, the
second request of the run is a retry of batch `["a"]`, issued before the
initial request for batch `["b"]`: the initial pass is not completed
before retry dispatch begins. -/
theorem C1_counterexample :
    (generateAux ⟨1, 1, 1, true⟩ (fun _ => "") ["a", "b"]).trace =
      [(ReqKind.initReq, ["a"]), (ReqKind.retryReq, ["a"]),
       (ReqKind.initReq, ["b"]), (ReqKind.retryReq, ["b"])] ∧
    chunk_list ["a", "b"] 1 = [["a"], ["b"]] ∧
    ((generateAux ⟨1, 1, 1, true⟩ (fun _ => "") ["a", "b"]).trace.take 2).map Prod.snd ≠
      (chunk_list ["a", "b"] 1 : List (List String)) :=
  ⟨by decide, by decide, by decide⟩

/-! ## Reconciliation-step lemmas -/

theorem processWord_eq (apply : Bool) (pm : List (String × String))
    (st : List (String × (String × String)) × List String) (w : String) :
    processWord apply pm st w =
      if trimEmpty ((findVal pm w).getD "") = true then (st.1, st.2 ++ [w])
      else (updAssoc st.1 w ((findVal pm w).getD "",
        if apply then post_fix_definition ((findVal pm w).getD "") else
          (findVal pm w).getD ""), st.2) := rfl

theorem processWords_cons (apply : Bool) (pm : List (String × String)) (w : String)
    (ws : List String) (res : List (String × (String × String))) (m0 : List String) :
    processWords apply pm (w :: ws) res m0 =
      if trimEmpty ((findVal pm w).getD "") = true then
        processWords apply pm ws res (m0 ++ [w])
      else
        processWords apply pm ws (updAssoc res w ((findVal pm w).getD "",
          if apply then post_fix_definition ((findVal pm w).getD "") else
            (findVal pm w).getD "")) m0 := by
  simp only [processWords, List.foldl_cons, processWord_eq]
  by_cases hd : trimEmpty ((findVal pm w).getD "") = true
  · rw [if_pos hd, if_pos hd]
  · rw [if_neg hd, if_neg hd]

theorem processWords_missing (apply : Bool) (pm : List (String × String)) :
    ∀ (ws : List String) (res : List (String × (String × String))) (m0 : List String),
      ∃ m1, (processWords apply pm ws res m0).2 = m0 ++ m1 ∧ ∀ w ∈ m1, w ∈ ws := by
  intro ws
  induction ws with
  | nil =>
    intro res m0
    exact ⟨[], by simp [processWords], by intro w hw; cases hw⟩
  | cons w ws ih =>
    intro res m0
    rw [processWords_cons]
    by_cases hd : trimEmpty ((findVal pm w).getD "") = true
    · rw [if_pos hd]
      obtain ⟨m1, hm, hsub⟩ := ih res (m0 ++ [w])
      refine ⟨w :: m1, ?_, ?_⟩
      · rw [hm, List.append_assoc]
        rfl
      · intro x hx
        rcases List.mem_cons.mp hx with rfl | hx2
        · exact List.mem_cons_self x ws
        · exact List.mem_cons_of_mem w (hsub x hx2)
    · rw [if_neg hd]
      obtain ⟨m1, hm, hsub⟩ := ih _ m0
      exact ⟨m1, hm, fun x hx => List.mem_cons_of_mem w (hsub x hx)⟩

theorem processWords_isSome (apply : Bool) (pm : List (String × String)) :
    ∀ (ws : List String) (res : List (String × (String × String))) (m0 : List String)
      (w : String), (findVal res w).isSome = true →
      (findVal (processWords apply pm ws res m0).1 w).isSome = true := by
  intro ws
  induction ws with
  | nil => intro res m0 w h; exact h
  | cons w2 ws ih =>
    intro res m0 w h
    rw [processWords_cons]
    by_cases hd : trimEmpty ((findVal pm w2).getD "") = true
    · rw [if_pos hd]
      exact ih res (m0 ++ [w2]) w h
    · rw [if_neg hd]
      exact ih _ m0 w (findVal_isSome_updAssoc h)

theorem processWords_covers (apply : Bool) (pm : List (String × String)) :
    ∀ (ws : List String) (res : List (String × (String × String))) (m0 : List String)
      (w : String), w ∈ ws →
      (findVal (processWords apply pm ws res m0).1 w).isSome = true ∨
      w ∈ (processWords apply pm ws res m0).2 := by
  intro ws
  induction ws with
  | nil => intro res m0 w h; cases h
  | cons w2 ws ih =>
    intro res m0 w h
    rw [processWords_cons]
    by_cases hd : trimEmpty ((findVal pm w2).getD "") = true
    · rw [if_pos hd]
      rcases List.mem_cons.mp h with rfl | hmem
      · right
        obtain ⟨m1, hm, _⟩ := processWords_missing apply pm ws res (m0 ++ [w])
        rw [hm]
        exact List.mem_append_left m1 (List.mem_append_right m0 (by simp))
      · exact ih res (m0 ++ [w2]) w hmem
    · rw [if_neg hd]
      rcases List.mem_cons.mp h with rfl | hmem
      · left
        apply processWords_isSome
        rw [findVal_updAssoc_self]
        rfl
      · exact ih _ m0 w hmem

/-! ## Fill-step lemmas -/

theorem fillMissing_cons (res : List (String × (String × String))) (w : String)
    (rest : List String) :
    fillMissing res (w :: rest) =
      fillMissing (if (findVal res w).isSome then res else updAssoc res w ("", ""))
        rest := by
  simp only [fillMissing, List.foldl_cons]

theorem fillMissing_preserves :
    ∀ (missing : List String) (res : List (String × (String × String)))
      (w : String) (v : String × String), findVal res w = some v →
      findVal (fillMissing res missing) w = some v := by
  intro missing
  induction missing with
  | nil => intro res w v h; exact h
  | cons w2 rest ih =>
    intro res w v h
    rw [fillMissing_cons]
    by_cases hs : (findVal res w2).isSome = true
    · rw [if_pos hs]
      exact ih res w v h
    · rw [if_neg hs]
      apply ih
      have hne : w2 ≠ w := by
        intro he
        rw [he, h] at hs
        exact hs rfl
      rw [findVal_updAssoc_ne res w2 w ("", "") hne]
      exact h

theorem fillMissing_isSome (missing : List String)
    (res : List (String × (String × String))) (w : String)
    (h : (findVal res w).isSome = true) :
    (findVal (fillMissing res missing) w).isSome = true := by
  cases hfv : findVal res w with
  | none => rw [hfv] at h; cases h
  | some v => rw [fillMissing_preserves missing res w v hfv]; rfl

theorem fillMissing_covers :
    ∀ (missing : List String) (res : List (String × (String × String))) (w : String),
      w ∈ missing → (findVal (fillMissing res missing) w).isSome = true := by
  intro missing
  induction missing with
  | nil => intro res w h; cases h
  | cons w2 rest ih =>
    intro res w h
    rw [fillMissing_cons]
    rcases List.mem_cons.mp h with rfl | hmem
    · by_cases hs : (findVal res w).isSome = true
      · rw [if_pos hs]
        exact fillMissing_isSome rest res w hs
      · rw [if_neg hs]
        apply fillMissing_isSome
        rw [findVal_updAssoc_self]
        rfl
    · by_cases hs : (findVal res w2).isSome = true
      · rw [if_pos hs]
        exact ih res w hmem
      · rw [if_neg hs]
        exact ih _ w hmem

/-! ## Retry-round lemmas -/

theorem chunkF_mem_sub {α : Type} :
    ∀ (f : Nat) (xs : List α) (n : Nat) (g : List α),
      g ∈ chunkF f xs n → ∀ a ∈ g, a ∈ xs := by
  intro f
  induction f with
  | zero => intro xs n g hg; cases hg
  | succ f ih =>
    intro xs n g hg
    cases xs with
    | nil => cases hg
    | cons x xs =>
      rcases List.mem_cons.mp hg with rfl | hg2
      · intro a ha
        exact List.take_subset n (x :: xs) ha
      · intro a ha
        exact List.drop_subset n (x :: xs) (ih ((x :: xs).drop n) n g hg2 a ha)

theorem chunk_list_mem_sub {α : Type} {xs : List α} {n : Nat} {g : List α}
    (hg : g ∈ chunk_list xs n) : ∀ a ∈ g, a ∈ xs :=
  chunkF_mem_sub xs.length xs n g hg

theorem retryChunk_trace (oracle : Nat → String) (apply : Bool)
    (p : GenState × List String) (rb : List String) :
    (retryChunk oracle apply p rb).1.trace = p.1.trace ++ [(ReqKind.retryReq, rb)] := rfl

theorem retryChunk_results (oracle : Nat → String) (apply : Bool)
    (p : GenState × List String) (rb : List String) :
    (retryChunk oracle apply p rb).1.results =
      (processWords apply (parse_ndjson_word_defs (oracle p.1.reqIdx)).1
        rb p.1.results p.2).1 := rfl

theorem retryChunk_missing (oracle : Nat → String) (apply : Bool)
    (p : GenState × List String) (rb : List String) :
    (retryChunk oracle apply p rb).2 =
      (processWords apply (parse_ndjson_word_defs (oracle p.1.reqIdx)).1
        rb p.1.results p.2).2 := rfl

theorem chunksFold_trace (oracle : Nat → String) (apply : Bool) :
    ∀ (chunks : List (List String)) (p : GenState × List String),
      ∃ t1, (chunks.foldl (retryChunk oracle apply) p).1.trace = p.1.trace ++ t1 ∧
        ∀ e ∈ t1, e.1 = ReqKind.retryReq ∧ e.2 ∈ chunks := by
  intro chunks
  induction chunks with
  | nil => intro p; exact ⟨[], by simp, by intro e he; cases he⟩
  | cons rb chunks ih =>
    intro p
    rw [List.foldl_cons]
    obtain ⟨t1, ht, hmem⟩ := ih (retryChunk oracle apply p rb)
    refine ⟨(ReqKind.retryReq, rb) :: t1, ?_, ?_⟩
    · rw [ht, retryChunk_trace, List.append_assoc]
      rfl
    · intro e he
      rcases List.mem_cons.mp he with rfl | he2
      · exact ⟨rfl, List.mem_cons_self rb chunks⟩
      · obtain ⟨h1, h2⟩ := hmem e he2
        exact ⟨h1, List.mem_cons_of_mem rb h2⟩

theorem chunksFold_missing (oracle : Nat → String) (apply : Bool) :
    ∀ (chunks : List (List String)) (p : GenState × List String),
      ∃ m1, (chunks.foldl (retryChunk oracle apply) p).2 = p.2 ++ m1 ∧
        ∀ w ∈ m1, ∃ rb ∈ chunks, w ∈ rb := by
  intro chunks
  induction chunks with
  | nil => intro p; exact ⟨[], by simp, by intro w hw; cases hw⟩
  | cons rb chunks ih =>
    intro p
    rw [List.foldl_cons]
    obtain ⟨m1, hm, hsub⟩ := ih (retryChunk oracle apply p rb)
    obtain ⟨mw, hmw, hmwsub⟩ := processWords_missing apply
      (parse_ndjson_word_defs (oracle p.1.reqIdx)).1 rb p.1.results p.2
    refine ⟨mw ++ m1, ?_, ?_⟩
    · rw [hm, retryChunk_missing, hmw, List.append_assoc]
    · intro w hw
      rcases List.mem_append.mp hw with hw2 | hw2
      · exact ⟨rb, List.mem_cons_self rb chunks, hmwsub w hw2⟩
      · obtain ⟨rb2, hrb2, hwrb2⟩ := hsub w hw2
        exact ⟨rb2, List.mem_cons_of_mem rb hrb2, hwrb2⟩

theorem chunksFold_isSome (oracle : Nat → String) (apply : Bool) :
    ∀ (chunks : List (List String)) (p : GenState × List String) (w : String),
      (findVal p.1.results w).isSome = true →
      (findVal (chunks.foldl (retryChunk oracle apply) p).1.results w).isSome = true := by
  intro chunks
  induction chunks with
  | nil => intro p w h; exact h
  | cons rb chunks ih =>
    intro p w h
    rw [List.foldl_cons]
    apply ih
    rw [retryChunk_results]
    exact processWords_isSome apply _ rb p.1.results p.2 w h

theorem chunksFold_covers (oracle : Nat → String) (apply : Bool) :
    ∀ (chunks : List (List String)) (p : GenState × List String) (rb : List String)
      (w : String), rb ∈ chunks → w ∈ rb →
      (findVal (chunks.foldl (retryChunk oracle apply) p).1.results w).isSome = true ∨
      w ∈ (chunks.foldl (retryChunk oracle apply) p).2 := by
  intro chunks
  induction chunks with
  | nil => intro p rb w h; cases h
  | cons rb0 chunks ih =>
    intro p rb w hrb hw
    rw [List.foldl_cons]
    rcases List.mem_cons.mp hrb with rfl | hrb2
    · rcases processWords_covers apply
        (parse_ndjson_word_defs (oracle p.1.reqIdx)).1 rb p.1.results p.2 w hw with
        hres | hmiss
      · left
        apply chunksFold_isSome
        rw [retryChunk_results]
        exact hres
      · obtain ⟨m1, hm, -⟩ := chunksFold_missing oracle apply chunks
          (retryChunk oracle apply p rb)
        right
        rw [hm, retryChunk_missing]
        exact List.mem_append_left m1 hmiss
    · exact ih (retryChunk oracle apply p rb0) rb w hrb2 hw

/-! ## Retry-loop lemmas -/

theorem retryRound_eq (oracle : Nat → String) (apply : Bool) (rbs : Nat)
    (missing : List String) (st : GenState) :
    retryRound oracle apply rbs missing st =
      (chunk_list missing rbs).foldl (retryChunk oracle apply) (st, []) := rfl

theorem retryLoop_zero (oracle : Nat → String) (apply : Bool) (rbs : Nat)
    (missing : List String) (st : GenState) :
    retryLoop oracle apply rbs 0 missing st = (st, missing, 0) := rfl

theorem retryLoop_succ (oracle : Nat → String) (apply : Bool) (rbs n : Nat)
    (missing : List String) (st : GenState) :
    retryLoop oracle apply rbs (n + 1) missing st =
      if missing.isEmpty = true then (st, missing, 0)
      else
        ((retryLoop oracle apply rbs n (retryRound oracle apply rbs missing st).2
            (retryRound oracle apply rbs missing st).1).1,
         (retryLoop oracle apply rbs n (retryRound oracle apply rbs missing st).2
            (retryRound oracle apply rbs missing st).1).2.1,
         (retryLoop oracle apply rbs n (retryRound oracle apply rbs missing st).2
            (retryRound oracle apply rbs missing st).1).2.2 + 1) := rfl

theorem retryLoop_rounds (oracle : Nat → String) (apply : Bool) (rbs : Nat) :
    ∀ (fuel : Nat) (missing : List String) (st : GenState),
      (retryLoop oracle apply rbs fuel missing st).2.2 ≤ fuel ∧
      ((retryLoop oracle apply rbs fuel missing st).2.2 < fuel →
        (retryLoop oracle apply rbs fuel missing st).2.1 = []) ∧
      ((retryLoop oracle apply rbs fuel missing st).2.1 ≠ [] →
        (retryLoop oracle apply rbs fuel missing st).2.2 = fuel) := by
  intro fuel
  induction fuel with
  | zero =>
    intro missing st
    exact ⟨Nat.le_refl 0, fun h => absurd h (Nat.lt_irrefl 0), fun _ => rfl⟩
  | succ n ih =>
    intro missing st
    rw [retryLoop_succ]
    by_cases he : missing.isEmpty = true
    · rw [if_pos he]
      exact ⟨Nat.zero_le _, fun _ => List.isEmpty_iff.mp he,
        fun hne => absurd (List.isEmpty_iff.mp he) hne⟩
    · rw [if_neg he]
      obtain ⟨ih1, ih2, ih3⟩ := ih (retryRound oracle apply rbs missing st).2
        (retryRound oracle apply rbs missing st).1
      refine ⟨?_, ?_, ?_⟩
      · show _ + 1 ≤ n + 1
        omega
      · intro h
        have h2 : (retryLoop oracle apply rbs n (retryRound oracle apply rbs missing st).2
            (retryRound oracle apply rbs missing st).1).2.2 + 1 < n + 1 := h
        exact ih2 (by omega)
      · intro hne
        show (retryLoop oracle apply rbs n (retryRound oracle apply rbs missing st).2
            (retryRound oracle apply rbs missing st).1).2.2 + 1 = n + 1
        rw [ih3 hne]

theorem retryLoop_spec (oracle : Nat → String) (apply : Bool) (rbs : Nat) :
    ∀ (fuel : Nat) (missing : List String) (st : GenState),
      ∃ t1, (retryLoop oracle apply rbs fuel missing st).1.trace = st.trace ++ t1 ∧
        (∀ e ∈ t1, e.1 = ReqKind.retryReq ∧ ∀ w ∈ e.2, w ∈ missing) ∧
        (∀ w ∈ (retryLoop oracle apply rbs fuel missing st).2.1, w ∈ missing) ∧
        (∀ w, (findVal st.results w).isSome = true →
          (findVal (retryLoop oracle apply rbs fuel missing st).1.results w).isSome = true) ∧
        (1 ≤ rbs → ∀ w ∈ missing,
          (findVal (retryLoop oracle apply rbs fuel missing st).1.results w).isSome = true ∨
          w ∈ (retryLoop oracle apply rbs fuel missing st).2.1) := by
  intro fuel
  induction fuel with
  | zero =>
    intro missing st
    refine ⟨[], by simp [retryLoop_zero], ?_, ?_, ?_, ?_⟩
    · intro e he
      cases he
    · exact fun w h => h
    · exact fun w h => h
    · exact fun _ w hw => Or.inr hw
  | succ n ih =>
    intro missing st
    rw [retryLoop_succ]
    by_cases he : missing.isEmpty = true
    · rw [if_pos he]
      refine ⟨[], by simp, ?_, ?_, ?_, ?_⟩
      · intro e he2
        cases he2
      · exact fun w h => h
      · exact fun w h => h
      · exact fun _ w hw => Or.inr hw
    · rw [if_neg he]
      obtain ⟨tr, htr, htrmem⟩ := chunksFold_trace oracle apply
        (chunk_list missing rbs) (st, [])
      obtain ⟨mr, hmr, hmrsub⟩ := chunksFold_missing oracle apply
        (chunk_list missing rbs) (st, [])
      obtain ⟨t1, ht1, ht1mem, hsub1, hmono1, hcov1⟩ := ih
        (retryRound oracle apply rbs missing st).2
        (retryRound oracle apply rbs missing st).1
      have hroundmiss : ∀ w ∈ (retryRound oracle apply rbs missing st).2, w ∈ missing := by
        intro w hw
        rw [retryRound_eq, hmr] at hw
        obtain ⟨rb, hrb, hwrb⟩ := hmrsub w (by simpa using hw)
        exact chunk_list_mem_sub hrb w hwrb
      refine ⟨tr ++ t1, ?_, ?_, ?_, ?_, ?_⟩
      · show (retryLoop oracle apply rbs n _ _).1.trace = _
        rw [ht1]
        show (retryRound oracle apply rbs missing st).1.trace ++ t1 = _
        rw [retryRound_eq, htr]
        show (st.trace ++ tr) ++ t1 = st.trace ++ (tr ++ t1)
        rw [List.append_assoc]
      · intro e hee
        rcases List.mem_append.mp hee with he2 | he2
        · obtain ⟨h1, h2⟩ := htrmem e he2
          exact ⟨h1, fun w hw => chunk_list_mem_sub h2 w hw⟩
        · obtain ⟨h1, h2⟩ := ht1mem e he2
          exact ⟨h1, fun w hw => hroundmiss w (h2 w hw)⟩
      · intro w hw
        exact hroundmiss w (hsub1 w hw)
      · intro w hw
        apply hmono1
        rw [retryRound_eq]
        exact chunksFold_isSome oracle apply (chunk_list missing rbs) (st, []) w hw
      · intro hrbs w hw
        have hjoin : w ∈ (chunk_list missing rbs).join := by
          obtain ⟨hj, -, -⟩ := chunkF_spec missing.length missing rbs (Nat.le_refl _) hrbs
          rw [show chunk_list missing rbs = chunkF missing.length missing rbs from rfl, hj]
          exact hw
        obtain ⟨rb, hrb, hwrb⟩ := List.mem_join.mp hjoin
        rcases chunksFold_covers oracle apply (chunk_list missing rbs) (st, []) rb w
          hrb hwrb with hres | hmiss
        · left
          apply hmono1
          rw [retryRound_eq]
          exact hres
        · have hw2 : w ∈ (retryRound oracle apply rbs missing st).2 := by
            rw [retryRound_eq]
            exact hmiss
          rcases hcov1 hrbs w hw2 with h2 | h2
          · exact Or.inl h2
          · exact Or.inr h2

/-! ## Per-batch and whole-run lemmas -/

theorem runBatch_trace_eq (oracle : Nat → String) (apply : Bool) (rbs mr : Nat)
    (st : GenState) (batch : List String) :
    (runBatch oracle apply rbs mr st batch).trace =
      (retryLoop oracle apply rbs mr
        (processWords apply (parse_ndjson_word_defs (oracle st.reqIdx)).1
          batch st.results []).2
        ⟨(processWords apply (parse_ndjson_word_defs (oracle st.reqIdx)).1
            batch st.results []).1,
          st.reqIdx + 1, st.trace ++ [(ReqKind.initReq, batch)]⟩).1.trace := rfl

theorem runBatch_results_eq (oracle : Nat → String) (apply : Bool) (rbs mr : Nat)
    (st : GenState) (batch : List String) :
    (runBatch oracle apply rbs mr st batch).results =
      fillMissing
        (retryLoop oracle apply rbs mr
          (processWords apply (parse_ndjson_word_defs (oracle st.reqIdx)).1
            batch st.results []).2
          ⟨(processWords apply (parse_ndjson_word_defs (oracle st.reqIdx)).1
              batch st.results []).1,
            st.reqIdx + 1, st.trace ++ [(ReqKind.initReq, batch)]⟩).1.results
        (retryLoop oracle apply rbs mr
          (processWords apply (parse_ndjson_word_defs (oracle st.reqIdx)).1
            batch st.results []).2
          ⟨(processWords apply (parse_ndjson_word_defs (oracle st.reqIdx)).1
              batch st.results []).1,
            st.reqIdx + 1, st.trace ++ [(ReqKind.initReq, batch)]⟩).2.1 := rfl

theorem runBatch_spec (oracle : Nat → String) (apply : Bool) (rbs mr : Nat)
    (st : GenState) (batch : List String) :
    ∃ t1, (runBatch oracle apply rbs mr st batch).trace =
        st.trace ++ (ReqKind.initReq, batch) :: t1 ∧
      (∀ e ∈ t1, e.1 = ReqKind.retryReq ∧ ∀ w ∈ e.2, w ∈ batch) ∧
      (∀ w, (findVal st.results w).isSome = true →
        (findVal (runBatch oracle apply rbs mr st batch).results w).isSome = true) ∧
      (1 ≤ rbs → ∀ w ∈ batch,
        (findVal (runBatch oracle apply rbs mr st batch).results w).isSome = true) := by
  obtain ⟨mb, hmb, hmbsub⟩ := processWords_missing apply
    (parse_ndjson_word_defs (oracle st.reqIdx)).1 batch st.results []
  obtain ⟨t1, ht1, ht1mem, hsub1, hmono1, hcov1⟩ := retryLoop_spec oracle apply rbs mr
    (processWords apply (parse_ndjson_word_defs (oracle st.reqIdx)).1
      batch st.results []).2
    ⟨(processWords apply (parse_ndjson_word_defs (oracle st.reqIdx)).1
        batch st.results []).1,
      st.reqIdx + 1, st.trace ++ [(ReqKind.initReq, batch)]⟩
  have hmiss_batch : ∀ w ∈ (processWords apply
      (parse_ndjson_word_defs (oracle st.reqIdx)).1 batch st.results []).2, w ∈ batch := by
    intro w hw
    rw [hmb] at hw
    exact hmbsub w (by simpa using hw)
  refine ⟨t1, ?_, ?_, ?_, ?_⟩
  · rw [runBatch_trace_eq, ht1]
    show (st.trace ++ [(ReqKind.initReq, batch)]) ++ t1 = _
    rw [List.append_assoc]
    rfl
  · intro e hee
    obtain ⟨h1, h2⟩ := ht1mem e hee
    exact ⟨h1, fun w hw => hmiss_batch w (h2 w hw)⟩
  · intro w hw
    rw [runBatch_results_eq]
    apply fillMissing_isSome
    apply hmono1
    exact processWords_isSome apply _ batch st.results [] w hw
  · intro hrbs w hw
    rw [runBatch_results_eq]
    rcases processWords_covers apply (parse_ndjson_word_defs (oracle st.reqIdx)).1
      batch st.results [] w hw with hres | hmiss
    · apply fillMissing_isSome
      exact hmono1 w hres
    · rcases hcov1 hrbs w hmiss with h2 | h2
      · exact fillMissing_isSome _ _ w h2
      · exact fillMissing_covers _ _ w h2

theorem runBatches_spec (oracle : Nat → String) (apply : Bool) (rbs mr : Nat) :
    ∀ (batches : List (List String)) (st : GenState),
      (∃ t1, (batches.foldl (runBatch oracle apply rbs mr) st).trace = st.trace ++ t1 ∧
        SegOK t1 batches) ∧
      (∀ w, (findVal st.results w).isSome = true →
        (findVal (batches.foldl (runBatch oracle apply rbs mr) st).results w).isSome = true) ∧
      (1 ≤ rbs → ∀ b ∈ batches, ∀ w ∈ b,
        (findVal (batches.foldl (runBatch oracle apply rbs mr) st).results w).isSome = true) := by
  intro batches
  induction batches with
  | nil =>
    intro st
    exact ⟨⟨[], by simp, rfl⟩, fun w h => h, fun _ b hb => absurd hb (List.not_mem_nil b)⟩
  | cons b bs ih =>
    intro st
    rw [List.foldl_cons]
    obtain ⟨tb, htb, htbmem, hbmono, hbcov⟩ := runBatch_spec oracle apply rbs mr st b
    obtain ⟨⟨t2, ht2, hseg⟩, hmono2, hcov2⟩ := ih (runBatch oracle apply rbs mr st b)
    refine ⟨⟨(ReqKind.initReq, b) :: (tb ++ t2), ?_, ?_⟩, ?_, ?_⟩
    · rw [ht2, htb]
      simp [List.append_assoc]
    · exact ⟨tb, t2, rfl, htbmem, hseg⟩
    · intro w hw
      exact hmono2 w (hbmono w hw)
    · intro hrbs b2 hb2 w hw
      rcases List.mem_cons.mp hb2 with rfl | hb3
      · exact hmono2 w (hbcov hrbs w hw)
      · exact hcov2 hrbs b2 hb3 w hw

theorem generateAux_eq (args : GenArgs) (oracle : Nat → String) (words : List String) :
    generateAux args oracle words =
      (chunk_list words args.batch_size).foldl
        (runBatch oracle args.apply_postfixes args.retry_batch_size args.max_retries)
        ⟨[], 0, []⟩ := rfl

/-- C1 (amended) -- retries are interleaved per batch, not deferred to
after the full initial pass: the request trace of a run decomposes, for
the initial batches in order, into each batch's initial request followed
only by retry requests whose words all come from that same batch; the
next initial batch is dispatched only after the previous batch's retry
rounds are finished. -/
theorem C1_retries_interleaved_per_batch (args : GenArgs) (oracle : Nat → String)
    (words : List String) :
    SegOK (generateAux args oracle words).trace (chunk_list words args.batch_size) := by
  obtain ⟨⟨t1, ht, hseg⟩, -, -⟩ := runBatches_spec oracle args.apply_postfixes
    args.retry_batch_size args.max_retries (chunk_list words args.batch_size)
    ⟨[], 0, []⟩
  rw [generateAux_eq]
  have ht2 : (( (chunk_list words args.batch_size).foldl
      (runBatch oracle args.apply_postfixes args.retry_batch_size args.max_retries)
      ⟨[], 0, []⟩ : GenState)).trace = t1 := by
    rw [ht]
    rfl
  rw [ht2]
  exact hseg

/-! ## A generic preservation principle for the engine's mapping

Every write the engine performs on the cumulative mapping is either a
resolution (a definition non-empty after trimming, coming from some
request's decoded mapping) or the empty-marker fill at a key not yet
present.  Any predicate preserved by both kinds of write is an invariant
of the whole run. -/

theorem processWords_P (oracle : Nat → String)
    (P : List (String × (String × String)) → Prop)
    (hyp : ∀ res k v, P res →
      ((trimEmpty v.1 = false ∧
          ∃ j, findVal (parse_ndjson_word_defs (oracle j)).1 k = some v.1) ∨
        (v = ("", "") ∧ findVal res k = none)) →
      P (updAssoc res k v))
    (apply : Bool) :
    ∀ (ws : List String) (j : Nat) (res : List (String × (String × String)))
      (m0 : List String), P res →
      P (processWords apply (parse_ndjson_word_defs (oracle j)).1 ws res m0).1 := by
  intro ws
  induction ws with
  | nil => intro j res m0 h; exact h
  | cons w ws ih =>
    intro j res m0 h
    rw [processWords_cons]
    by_cases hd : trimEmpty ((findVal (parse_ndjson_word_defs (oracle j)).1 w).getD "") = true
    · rw [if_pos hd]
      exact ih j res _ h
    · rw [if_neg hd]
      apply ih
      apply hyp res w _ h
      left
      refine ⟨Bool.eq_false_iff.mpr hd, j, ?_⟩
      cases hpv : findVal (parse_ndjson_word_defs (oracle j)).1 w with
      | none =>
        exfalso
        apply hd
        rw [hpv]
        rfl
      | some d0 =>
        rfl

theorem fillMissing_P (oracle : Nat → String)
    (P : List (String × (String × String)) → Prop)
    (hyp : ∀ res k v, P res →
      ((trimEmpty v.1 = false ∧
          ∃ j, findVal (parse_ndjson_word_defs (oracle j)).1 k = some v.1) ∨
        (v = ("", "") ∧ findVal res k = none)) →
      P (updAssoc res k v)) :
    ∀ (missing : List String) (res : List (String × (String × String))), P res →
      P (fillMissing res missing) := by
  intro missing
  induction missing with
  | nil => intro res h; exact h
  | cons w2 rest ih =>
    intro res h
    rw [fillMissing_cons]
    by_cases hs : (findVal res w2).isSome = true
    · rw [if_pos hs]
      exact ih res h
    · rw [if_neg hs]
      apply ih
      apply hyp res w2 ("", "") h
      right
      refine ⟨rfl, ?_⟩
      cases hfv : findVal res w2 with
      | none => rfl
      | some v0 => rw [hfv] at hs; exact absurd rfl hs

theorem chunksFold_P (oracle : Nat → String)
    (P : List (String × (String × String)) → Prop)
    (hyp : ∀ res k v, P res →
      ((trimEmpty v.1 = false ∧
          ∃ j, findVal (parse_ndjson_word_defs (oracle j)).1 k = some v.1) ∨
        (v = ("", "") ∧ findVal res k = none)) →
      P (updAssoc res k v))
    (apply : Bool) :
    ∀ (chunks : List (List String)) (p : GenState × List String), P p.1.results →
      P ((chunks.foldl (retryChunk oracle apply) p).1.results) := by
  intro chunks
  induction chunks with
  | nil => intro p h; exact h
  | cons rb chunks ih =>
    intro p h
    rw [List.foldl_cons]
    apply ih
    rw [retryChunk_results]
    exact processWords_P oracle P hyp apply rb p.1.reqIdx p.1.results p.2 h

theorem retryLoop_P (oracle : Nat → String)
    (P : List (String × (String × String)) → Prop)
    (hyp : ∀ res k v, P res →
      ((trimEmpty v.1 = false ∧
          ∃ j, findVal (parse_ndjson_word_defs (oracle j)).1 k = some v.1) ∨
        (v = ("", "") ∧ findVal res k = none)) →
      P (updAssoc res k v))
    (apply : Bool) (rbs : Nat) :
    ∀ (fuel : Nat) (missing : List String) (st : GenState), P st.results →
      P ((retryLoop oracle apply rbs fuel missing st).1.results) := by
  intro fuel
  induction fuel with
  | zero => intro missing st h; exact h
  | succ n ih =>
    intro missing st h
    rw [retryLoop_succ]
    by_cases he : missing.isEmpty = true
    · rw [if_pos he]
      exact h
    · rw [if_neg he]
      apply ih
      rw [retryRound_eq]
      exact chunksFold_P oracle P hyp apply (chunk_list missing rbs) (st, []) h

theorem runBatch_P (oracle : Nat → String)
    (P : List (String × (String × String)) → Prop)
    (hyp : ∀ res k v, P res →
      ((trimEmpty v.1 = false ∧
          ∃ j, findVal (parse_ndjson_word_defs (oracle j)).1 k = some v.1) ∨
        (v = ("", "") ∧ findVal res k = none)) →
      P (updAssoc res k v))
    (apply : Bool) (rbs mr : Nat) (st : GenState) (batch : List String)
    (h : P st.results) : P ((runBatch oracle apply rbs mr st batch).results) := by
  rw [runBatch_results_eq]
  apply fillMissing_P oracle P hyp
  apply retryLoop_P oracle P hyp apply rbs mr
  exact processWords_P oracle P hyp apply batch st.reqIdx st.results [] h

theorem runBatches_P (oracle : Nat → String)
    (P : List (String × (String × String)) → Prop)
    (hyp : ∀ res k v, P res →
      ((trimEmpty v.1 = false ∧
          ∃ j, findVal (parse_ndjson_word_defs (oracle j)).1 k = some v.1) ∨
        (v = ("", "") ∧ findVal res k = none)) →
      P (updAssoc res k v))
    (apply : Bool) (rbs mr : Nat) :
    ∀ (batches : List (List String)) (st : GenState), P st.results →
      P ((batches.foldl (runBatch oracle apply rbs mr) st).results) := by
  intro batches
  induction batches with
  | nil => intro st h; exact h
  | cons b bs ih =>
    intro st h
    rw [List.foldl_cons]
    exact ih _ (runBatch_P oracle P hyp apply rbs mr st b h)

/-! ## C2: termination and finalization of the retry loop -/

/-- C2 -- the retry loop always terminates: it executes at most the
configured maximum number of rounds, it stops early only because the
missing set became empty, and a non-empty final missing set means
exactly the maximum number of rounds ran; and for every run with batch
sizes at least 1, a word that no request of the run ever resolved (its
decoded definition is empty after trimming in every response) is present
in the final mapping with raw `""` and cleaned `""`. -/
theorem C2_retry_termination_and_finalization :
    (∀ (oracle : Nat → String) (apply : Bool) (rbs fuel : Nat)
        (missing : List String) (st : GenState),
        (retryLoop oracle apply rbs fuel missing st).2.2 ≤ fuel ∧
        ((retryLoop oracle apply rbs fuel missing st).2.2 < fuel →
          (retryLoop oracle apply rbs fuel missing st).2.1 = []) ∧
        ((retryLoop oracle apply rbs fuel missing st).2.1 ≠ [] →
          (retryLoop oracle apply rbs fuel missing st).2.2 = fuel)) ∧
    (∀ (args : GenArgs) (oracle : Nat → String) (words : List String) (w : String),
        1 ≤ args.batch_size → 1 ≤ args.retry_batch_size → w ∈ words →
        (∀ k, trimEmpty ((findVal (parse_ndjson_word_defs (oracle k)).1 w).getD "") = true) →
        findVal (generate args oracle words) w = some ("", "")) := by
  constructor
  · intro oracle apply rbs fuel missing st
    exact retryLoop_rounds oracle apply rbs fuel missing st
  · intro args oracle words w hb hr hw hnr
    have hmem : ∃ b ∈ chunk_list words args.batch_size, w ∈ b := by
      obtain ⟨hj, -, -⟩ := chunkF_spec words.length words args.batch_size
        (Nat.le_refl _) hb
      apply List.mem_join.mp
      have hj2 : (chunk_list words args.batch_size).flatten = words := hj
      rw [hj2]
      exact hw
    obtain ⟨b, hbmem, hwb⟩ := hmem
    obtain ⟨-, -, hcov⟩ := runBatches_spec oracle args.apply_postfixes
      args.retry_batch_size args.max_retries (chunk_list words args.batch_size)
      ⟨[], 0, []⟩
    have hsome : (findVal (generate args oracle words) w).isSome = true :=
      hcov hr b hbmem w hwb
    have hS : ∀ w2 v, findVal (generate args oracle words) w2 = some v →
        trimEmpty v.1 = true → v = ("", "") := by
      apply runBatches_P oracle
        (fun res => ∀ w2 v, findVal res w2 = some v → trimEmpty v.1 = true →
          v = ("", ""))
        ?_ args.apply_postfixes args.retry_batch_size args.max_retries
        (chunk_list words args.batch_size) ⟨[], 0, []⟩ ?_
      · intro res k v hP hdisj w2 v2 hf ht
        by_cases hk : k = w2
        · subst hk
          rw [findVal_updAssoc_self] at hf
          have hv : v = v2 := Option.some.inj hf
          subst hv
          rcases hdisj with ⟨hfalse, -⟩ | ⟨hrfl, -⟩
          · rw [ht] at hfalse
            cases hfalse
          · exact hrfl
        · rw [findVal_updAssoc_ne res k w2 v hk] at hf
          exact hP w2 v2 hf ht
      · intro w2 v hf
        cases hf
    have hT : ∀ v, findVal (generate args oracle words) w = some v →
        trimEmpty v.1 = true := by
      apply runBatches_P oracle
        (fun res => ∀ v, findVal res w = some v → trimEmpty v.1 = true)
        ?_ args.apply_postfixes args.retry_batch_size args.max_retries
        (chunk_list words args.batch_size) ⟨[], 0, []⟩ ?_
      · intro res k v hP hdisj v2 hf
        by_cases hk : k = w
        · subst hk
          rw [findVal_updAssoc_self] at hf
          have hv : v = v2 := Option.some.inj hf
          rcases hdisj with ⟨hfalse, j, hj⟩ | ⟨hrfl, -⟩
          · exfalso
            have hnr2 := hnr j
            rw [hj] at hnr2
            have hnr3 : trimEmpty v.1 = true := hnr2
            rw [hfalse] at hnr3
            cases hnr3
          · rw [← hv, hrfl]
            rfl
        · rw [findVal_updAssoc_ne res k w v hk] at hf
          exact hP v2 hf
      · intro v hf
        cases hf
    obtain ⟨v, hv⟩ := Option.isSome_iff_exists.mp hsome
    rw [hv, hS w v hv (hT v hv)]

/-- Witness for C2: two retry rounds allowed on a missing word with an
endpoint that answers nothing, and a full run where `"a"` is never
resolved and ends as `("", "")`. -/
theorem C2_witness :
    ((retryLoop (fun _ => "") true 1 2 ["a"] ⟨[], 0, []⟩).2.2 ≤ 2 ∧
      ((retryLoop (fun _ => "") true 1 2 ["a"] ⟨[], 0, []⟩).2.2 < 2 →
        (retryLoop (fun _ => "") true 1 2 ["a"] ⟨[], 0, []⟩).2.1 = []) ∧
      ((retryLoop (fun _ => "") true 1 2 ["a"] ⟨[], 0, []⟩).2.1 ≠ [] →
        (retryLoop (fun _ => "") true 1 2 ["a"] ⟨[], 0, []⟩).2.2 = 2)) ∧
    ((1 : Nat) ≤ 1 ∧ "a" ∈ ["a"] ∧
      findVal (generate ⟨1, 1, 1, true⟩ (fun _ => "") ["a"]) "a" = some ("", "")) :=
  ⟨C2_retry_termination_and_finalization.1 (fun _ => "") true 1 2 ["a"] ⟨[], 0, []⟩,
   by decide, by decide,
   C2_retry_termination_and_finalization.2 ⟨1, 1, 1, true⟩ (fun _ => "") ["a"] "a"
     (by decide) (by decide) (by decide)
     (fun _ => (by decide :
       trimEmpty ((findVal (parse_ndjson_word_defs "").1 "a").getD "") = true))⟩

/-! ## C10: resolved entries are never clobbered -/

/-- C10 -- the empty-marker fill never replaces a present entry (it
writes `("", "")` only at keys not in the mapping, so every present
binding survives it verbatim), and once the cumulative mapping holds a
word with a non-empty (after trimming) raw definition at any point of a
run, the final mapping still holds that word with a non-empty raw
definition. -/
theorem C10_fill_preserves_resolved :
    (∀ (res : List (String × (String × String))) (missing : List String)
        (w : String) (v : String × String), findVal res w = some v →
        findVal (fillMissing res missing) w = some v) ∧
    (∀ (oracle : Nat → String) (apply : Bool) (rbs mr : Nat)
        (batches : List (List String)) (st : GenState) (w : String)
        (v : String × String),
        findVal st.results w = some v → trimEmpty v.1 = false →
        ∃ v2, findVal ((batches.foldl (runBatch oracle apply rbs mr) st).results) w =
            some v2 ∧ trimEmpty v2.1 = false) := by
  constructor
  · intro res missing w v h
    exact fillMissing_preserves missing res w v h
  · intro oracle apply rbs mr batches st w v hv hne
    apply runBatches_P oracle
      (fun res => ∃ v2, findVal res w = some v2 ∧ trimEmpty v2.1 = false)
      ?_ apply rbs mr batches st ⟨v, hv, hne⟩
    intro res k v2 hP hdisj
    by_cases hk : k = w
    · subst hk
      rcases hdisj with ⟨hfalse, -⟩ | ⟨-, hnone⟩
      · exact ⟨v2, findVal_updAssoc_self res k v2, hfalse⟩
      · obtain ⟨v0, hv0, -⟩ := hP
        rw [hnone] at hv0
        cases hv0
    · obtain ⟨v0, hv0, hne0⟩ := hP
      refine ⟨v0, ?_, hne0⟩
      rw [findVal_updAssoc_ne res k w v2 hk]
      exact hv0

/-- Witness for C10: a resolved entry survives the fill step verbatim
and survives a whole batch (whose response resolves nothing). -/
theorem C10_witness :
    findVal [("a", ("x", "y"))] "a" = some ("x", "y") ∧
    findVal (fillMissing [("a", ("x", "y"))] ["a", "b"]) "a" = some ("x", "y") ∧
    trimEmpty ("x" : String) = false ∧
    (∃ v2, findVal (([["a"]] : List (List String)).foldl
        (runBatch (fun _ => "") true 1 1) ⟨[("a", ("x", "y"))], 0, []⟩).results "a" =
          some v2 ∧ trimEmpty v2.1 = false) :=
  ⟨by decide,
   C10_fill_preserves_resolved.1 [("a", ("x", "y"))] ["a", "b"] "a" ("x", "y")
     (by decide),
   by decide,
   C10_fill_preserves_resolved.2 (fun _ => "") true 1 1 [["a"]]
     ⟨[("a", ("x", "y"))], 0, []⟩ "a" ("x", "y") (by decide) (by decide)⟩

end D2A
